import Mathlib

/-!
# Verification of the Dijkstra shortest-path core (`src/main.rs`)

Shallow embedding of the Rust program: the `Arena` graph engine with its
cost ledger, predecessor map, processed set, frontier selection
(`find_lowest_cost_node`), relaxation loop and path reconstruction
(`djikstra`, spelled as in the source).

Modelling conventions:
* `Node` and `Edge` mirror the Rust structs; Rust `PartialEq` on `Node`
  (derived, one field) is Lean's `DecidableEq`.
* The Rust `f64` cost domain is modelled by `F64`: a rational (exact
  arithmetic, rounding of IEEE doubles is idealized away) or the value
  `F64.inf` for `f64::INFINITY`.  The default-cost sentinel `f64::MAX`
  is the exact rational `f64MAX = 2^1024 - 2^971`.  NaN never arises
  (all weights are rationals), so the source's `partial_cmp(..).unwrap()`
  in the frontier comparator cannot panic and is modelled as a total
  comparison.
* The Rust `HashMap`s are modelled as association lists with
  replace-on-insert (`upsert`) and first-match lookup (`lookupKey`);
  iteration order of the model is list order (the source's hash order is
  unspecified; no claim below depends on a particular order beyond what
  `min_by` / `find` guarantee).
* The `unwrap()` in `get_weight` (a panic when no edge matches) is
  modelled by `Option`: `none` is the panic.  Inside the relaxation loop
  the `none` branch is provably unreachable (claim C10), so propagating
  it as a no-op does not change the engine's behaviour.
* The `while let` loops are modelled by well-founded recursion
  (`djikstraLoop`) and by fuel (`buildPath`).  The fuel
  `parents.length + 1` is exact: whenever the source's predecessor walk
  terminates it visits pairwise-distinct keys, hence at most
  `parents.length` steps; if the walk would revisit a key the source
  diverges, which the model reports as `none`.
-/

/-- A graph node: an opaque identity.  Mirrors `struct Node { id: String }`;
equality is by identifier, exactly as the derived Rust `PartialEq`. -/
structure Node where
  id : String
deriving DecidableEq

/-- A directed weighted edge.  Mirrors `struct Edge` (weight `f64` modelled
as an exact rational; the claims under verification all restrict to
non-negative finite weights). -/
structure Edge where
  id : String
  weight : ℚ
  start_node : Node
  end_node : Node
deriving DecidableEq

/-- The exact rational value of `f64::MAX`. -/
def f64MAX : ℚ := 2 ^ 1024 - 2 ^ 971

/-- The cost domain: finite doubles (exact rationals) or `f64::INFINITY`. -/
inductive F64 where
  | fin : ℚ → F64
  | inf : F64
deriving DecidableEq

namespace F64

/-- The order on costs, as `f64` comparison on non-NaN values. -/
def le : F64 → F64 → Prop
  | fin a, fin b => a ≤ b
  | fin _, inf => True
  | inf, fin _ => False
  | inf, inf => True

/-- Strict order on costs. -/
def lt : F64 → F64 → Prop
  | fin a, fin b => a < b
  | fin _, inf => True
  | inf, _ => False

instance : ∀ x y : F64, Decidable (le x y)
  | fin a, fin b => inferInstanceAs (Decidable (a ≤ b))
  | fin _, inf => inferInstanceAs (Decidable True)
  | inf, fin _ => inferInstanceAs (Decidable False)
  | inf, inf => inferInstanceAs (Decidable True)

instance : ∀ x y : F64, Decidable (lt x y)
  | fin a, fin b => inferInstanceAs (Decidable (a < b))
  | fin _, inf => inferInstanceAs (Decidable True)
  | inf, _ => inferInstanceAs (Decidable False)

/-- Adding a finite weight to a cost (`cost + neighbor_cost` in the source);
`INFINITY + w = INFINITY` as for IEEE doubles. -/
def add : F64 → ℚ → F64
  | fin a, w => fin (a + w)
  | inf, _ => inf

theorem le_refl (x : F64) : le x x := by cases x <;> simp [le]

theorem le_trans {x y z : F64} (h1 : le x y) (h2 : le y z) : le x z := by
  cases x <;> cases y <;> cases z <;> simp_all [le] <;> exact h1.trans h2

theorem le_of_not_lt {x y : F64} (h : ¬ lt x y) : le y x := by
  cases x <;> cases y <;> simp_all [le, lt] <;> linarith

theorem not_lt_of_le {x y : F64} (h : le x y) : ¬ lt y x := by
  cases x <;> cases y <;> simp_all [le, lt] <;> linarith

theorem lt_of_lt_of_le {x y z : F64} (h1 : lt x y) (h2 : le y z) : lt x z := by
  cases x <;> cases y <;> cases z <;> simp_all [le, lt] <;> linarith

theorem le_of_lt {x y : F64} (h : lt x y) : le x y := by
  cases x <;> cases y <;> simp_all [le, lt] <;> linarith

theorem add_le_add_right {x y : F64} (w : ℚ) (h : le x y) : le (add x w) (add y w) := by
  cases x <;> cases y <;> simp_all [le, add] <;> linarith

theorem le_add_of_nonneg {x : F64} {w : ℚ} (hw : 0 ≤ w) : le x (add x w) := by
  cases x <;> simp_all [le, add] <;> linarith

theorem fin_le_fin {a b : ℚ} (h : a ≤ b) : le (fin a) (fin b) := h

theorem le_fin_iff {x : F64} {b : ℚ} : le x (fin b) ↔ ∃ a, x = fin a ∧ a ≤ b := by
  cases x <;> simp [le]

theorem add_fin (a : ℚ) (w : ℚ) : add (fin a) w = fin (a + w) := rfl

theorem le_tot (x y : F64) : le x y ∨ le y x := by
  cases x with
  | fin a =>
    cases y with
    | fin b => exact le_total a b
    | inf => exact Or.inl trivial
  | inf =>
    cases y with
    | fin b => exact Or.inr trivial
    | inf => exact Or.inl trivial

end F64

/-! ## Association lists (the `HashMap` model) -/

/-- `HashMap::insert`: replace the value at an existing key, else append. -/
def upsert {α : Type} (k : String) (v : α) : List (String × α) → List (String × α)
  | [] => [(k, v)]
  | (k', v') :: rest => if k' = k then (k, v) :: rest else (k', v') :: upsert k v rest

/-- `HashMap::get`: the value at the first matching key. -/
def lookupKey {α : Type} (k : String) : List (String × α) → Option α
  | [] => none
  | (k', v') :: rest => if k' = k then some v' else lookupKey k rest

theorem lookupKey_upsert_self {α : Type} (k : String) (v : α) (m : List (String × α)) :
    lookupKey k (upsert k v m) = some v := by
  induction m with
  | nil => simp [upsert, lookupKey]
  | cons p rest ih =>
    obtain ⟨k', v'⟩ := p
    by_cases h : k' = k <;> simp [upsert, lookupKey, h, ih]

theorem lookupKey_upsert_ne {α : Type} {k k2 : String} (v : α) (m : List (String × α))
    (h : k2 ≠ k) : lookupKey k2 (upsert k v m) = lookupKey k2 m := by
  have hne : k ≠ k2 := fun h2 => h h2.symm
  induction m with
  | nil => simp [upsert, lookupKey, hne]
  | cons p rest ih =>
    obtain ⟨k', v'⟩ := p
    by_cases hk : k' = k
    · subst hk
      simp [upsert, lookupKey, hne]
    · by_cases hk2 : k' = k2
      · subst hk2
        simp [upsert, lookupKey, hk]
      · simp [upsert, lookupKey, hk, hk2, ih]

/-- A key of an upsert-built map is an old key or the inserted key. -/
theorem mem_upsert_keys {α : Type} {k k' : String} {v : α} {l : List (String × α)}
    (h : k' ∈ (upsert k v l).map Prod.fst) : k' ∈ l.map Prod.fst ∨ k' = k := by
  induction l with
  | nil => exact Or.inr (by simpa [upsert] using h)
  | cons q tl ih2 =>
    obtain ⟨kq, vq⟩ := q
    by_cases hq : kq = k
    · simp only [upsert, if_pos hq, List.map_cons] at h
      rcases List.mem_cons.mp h with h1 | h1
      · exact Or.inr h1
      · exact Or.inl (by simp [h1])
    · simp only [upsert, if_neg hq, List.map_cons] at h
      rcases List.mem_cons.mp h with h1 | h1
      · exact Or.inl (by simp [h1])
      · rcases ih2 h1 with h2 | h2
        · exact Or.inl (by simp [h2])
        · exact Or.inr h2

theorem upsert_keys_nodup {α : Type} (k : String) (v : α) (m : List (String × α))
    (h : (m.map Prod.fst).Nodup) : ((upsert k v m).map Prod.fst).Nodup := by
  induction m with
  | nil => simp [upsert]
  | cons p rest ih =>
    obtain ⟨k', v'⟩ := p
    simp only [List.map_cons, List.nodup_cons] at h
    by_cases hk : k' = k
    · subst hk
      simpa [upsert] using h
    · simp only [upsert, if_neg hk, List.map_cons, List.nodup_cons]
      refine ⟨?_, ih h.2⟩
      intro hmem
      rcases mem_upsert_keys hmem with h2 | h2
      · exact h.1 h2
      · exact hk h2

theorem lookupKey_isSome_of_upsert {α : Type} {k k2 : String} {v : α} {m : List (String × α)}
    (h : (lookupKey k2 m).isSome) : (lookupKey k2 (upsert k v m)).isSome := by
  by_cases hk : k2 = k
  · subst hk
    simp [lookupKey_upsert_self]
  · rwa [lookupKey_upsert_ne v m hk]

/-- Every value of an upsert-built map is either the inserted value or an old one. -/
theorem mem_upsert_vals {α : Type} {k : String} {v : α} {m : List (String × α)} {x : α}
    (h : x ∈ (upsert k v m).map Prod.snd) : x = v ∨ x ∈ m.map Prod.snd := by
  induction m with
  | nil => simpa [upsert] using h
  | cons p rest ih =>
    obtain ⟨k', v'⟩ := p
    by_cases hk : k' = k
    · subst hk
      rcases (by simpa [upsert] using h : x = v ∨ x ∈ rest.map Prod.snd) with h1 | h1
      · exact Or.inl h1
      · exact Or.inr (by simp [h1])
    · rcases (by simpa [upsert, hk] using h : x = v' ∨ x ∈ (upsert k v rest).map Prod.snd)
        with h1 | h1
      · exact Or.inr (by simp [h1])
      · rcases ih h1 with h2 | h2
        · exact Or.inl h2
        · exact Or.inr (by simp [h2])

/-! ## The Arena (graph store + cost ledger + predecessor map + processed set) -/

/-- The engine state.  Mirrors `struct Arena` field by field (`end` is a
reserved word in Lean, hence `end_`). -/
structure Arena where
  parents : List (String × String)
  nodes : List (String × Node)
  edges : List (String × Edge)
  costs : List (String × F64)
  processed : List Node
  start : Node
  end_ : Node

namespace Arena

/-- `Arena::new`: seed the cost ledger with the start node at `0.0` and the
end node at `f64::INFINITY`; everything else empty. -/
def new (start end_ : Node) : Arena :=
  { parents := []
    nodes := []
    edges := []
    costs := upsert end_.id F64.inf (upsert start.id (F64.fin 0) [])
    processed := []
    start := start
    end_ := end_ }

/-- `Arena::add_node`: register a node under its identifier (silently
overwriting on collision, as `HashMap::insert` does). -/
def add_node (a : Arena) (node : Node) : Arena :=
  { a with nodes := upsert node.id node a.nodes }

/-- `Arena::add_nodes`: fold of `add_node`. -/
def add_nodes (a : Arena) (nodes : List Node) : Arena :=
  nodes.foldl add_node a

/-- `Arena::add_edge`. -/
def add_edge (a : Arena) (edge : Edge) : Arena :=
  { a with edges := upsert edge.id edge a.edges }

/-- `Arena::add_edges`: fold of `add_edge`. -/
def add_edges (a : Arena) (edges : List Edge) : Arena :=
  edges.foldl add_edge a

/-- The registered edges (the values of the edge registry). -/
def edgeVals (a : Arena) : List Edge := a.edges.map Prod.snd

/-- The registered nodes (the values of the node registry). -/
def nodeVals (a : Arena) : List Node := a.nodes.map Prod.snd

/-- `Arena::find_neighbors`: end-points of every registered edge whose
start-point equals the given node. -/
def find_neighbors (a : Arena) (node : Node) : List Node :=
  (a.edgeVals.filter (fun e => e.start_node = node)).map (fun e => e.end_node)

/-- `Arena::mark_node_processed`. -/
def mark_node_processed (a : Arena) (node : Node) : Arena :=
  { a with processed := a.processed ++ [node] }

/-- `Arena::get_cost`: the ledger entry, or the `f64::MAX` sentinel when the
node has no entry. -/
def get_cost (a : Arena) (node : Node) : F64 :=
  match lookupKey node.id a.costs with
  | some cost => cost
  | none => F64.fin f64MAX

/-- `Arena::get_weight`: the weight of the first registered edge from
`node_one` to `node_two`.  The source calls `.unwrap()` on the search
result, so `none` here is the source's panic. -/
def get_weight (a : Arena) (node_one node_two : Node) : Option ℚ :=
  (a.edgeVals.find? (fun e => e.start_node == node_one && e.end_node == node_two)).map
    Edge.weight

/-- The unprocessed registered nodes, in registry order (the frontier). -/
def candidates (a : Arena) : List Node :=
  a.nodeVals.filter (fun n => !(a.processed.contains n))

/-- The fold underlying `min_by`: keep the accumulator unless the next
element's cost is `≤` (so the last of several equal minima wins, as Rust's
`Iterator::min_by` specifies). -/
def minByCostAux (a : Arena) : Node → List Node → Node
  | acc, [] => acc
  | acc, n :: rest => minByCostAux a (if F64.le (a.get_cost n) (a.get_cost acc) then n else acc) rest

/-- `Arena::find_lowest_cost_node`: minimum-cost unprocessed registered node. -/
def find_lowest_cost_node (a : Arena) : Option Node :=
  match a.candidates with
  | [] => none
  | n :: rest => some (a.minByCostAux n rest)

/-- One relaxation (the body of the `for_each` over neighbors): look up the
weight, and if the path through `node` improves `neighbor`'s cost, overwrite
its cost and predecessor.  `get_weight = none` would be the source's panic;
it is unreachable when `neighbor` comes from `find_neighbors` (claim C10). -/
def relaxOne (a : Arena) (node neighbor : Node) : Arena :=
  match a.get_weight node neighbor with
  | none => a
  | some w =>
    let cost := a.get_cost node
    let new_cost := F64.add cost w
    if F64.lt new_cost (a.get_cost neighbor) then
      { a with
        costs := upsert neighbor.id new_cost a.costs
        parents := upsert neighbor.id node.id a.parents }
    else a

/-- One iteration of the `while let` loop: relax every neighbor of the
selected node, then push it onto the processed list. -/
def djikstraVisit (a : Arena) (node : Node) : Arena :=
  let a' := (a.find_neighbors node).foldl (fun acc nb => relaxOne acc node nb) a
  { a' with processed := a'.processed ++ [node] }

theorem relaxOne_nodes (a : Arena) (node neighbor : Node) :
    (a.relaxOne node neighbor).nodes = a.nodes := by
  unfold relaxOne
  cases a.get_weight node neighbor <;> simp only [] <;> split <;> rfl

theorem relaxOne_processed (a : Arena) (node neighbor : Node) :
    (a.relaxOne node neighbor).processed = a.processed := by
  unfold relaxOne
  cases a.get_weight node neighbor <;> simp only [] <;> split <;> rfl

theorem relaxOne_edges (a : Arena) (node neighbor : Node) :
    (a.relaxOne node neighbor).edges = a.edges := by
  unfold relaxOne
  cases a.get_weight node neighbor <;> simp only [] <;> split <;> rfl

theorem relaxFold_nodes (a : Arena) (node : Node) (l : List Node) :
    (l.foldl (fun acc nb => relaxOne acc node nb) a).nodes = a.nodes := by
  induction l generalizing a with
  | nil => rfl
  | cons x xs ih => simp [List.foldl_cons, ih, relaxOne_nodes]

theorem relaxFold_processed (a : Arena) (node : Node) (l : List Node) :
    (l.foldl (fun acc nb => relaxOne acc node nb) a).processed = a.processed := by
  induction l generalizing a with
  | nil => rfl
  | cons x xs ih => simp [List.foldl_cons, ih, relaxOne_processed]

theorem relaxFold_edges (a : Arena) (node : Node) (l : List Node) :
    (l.foldl (fun acc nb => relaxOne acc node nb) a).edges = a.edges := by
  induction l generalizing a with
  | nil => rfl
  | cons x xs ih => simp [List.foldl_cons, ih, relaxOne_edges]

theorem djikstraVisit_nodes (a : Arena) (node : Node) :
    (a.djikstraVisit node).nodes = a.nodes := by
  simp [djikstraVisit, relaxFold_nodes]

theorem djikstraVisit_edges (a : Arena) (node : Node) :
    (a.djikstraVisit node).edges = a.edges := by
  simp [djikstraVisit, relaxFold_edges]

theorem djikstraVisit_processed (a : Arena) (node : Node) :
    (a.djikstraVisit node).processed = a.processed ++ [node] := by
  simp [djikstraVisit, relaxFold_processed]

/-- Membership of the `min_by` fold result. -/
theorem minByCostAux_mem (a : Arena) (acc : Node) (l : List Node) :
    a.minByCostAux acc l = acc ∨ a.minByCostAux acc l ∈ l := by
  induction l generalizing acc with
  | nil => exact Or.inl rfl
  | cons x xs ih =>
    simp only [minByCostAux]
    split
    · rcases ih x with h | h
      · exact Or.inr (by simp [h])
      · exact Or.inr (by simp [h])
    · rcases ih acc with h | h
      · exact Or.inl h
      · exact Or.inr (by simp [h])

/-- Minimality of the `min_by` fold result. -/
theorem minByCostAux_min (a : Arena) (acc : Node) (l : List Node) :
    F64.le (a.get_cost (a.minByCostAux acc l)) (a.get_cost acc) ∧
      ∀ x ∈ l, F64.le (a.get_cost (a.minByCostAux acc l)) (a.get_cost x) := by
  induction l generalizing acc with
  | nil => exact ⟨F64.le_refl _, by simp⟩
  | cons x xs ih =>
    simp only [minByCostAux]
    split
    · rename_i hle
      obtain ⟨h1, h2⟩ := ih x
      refine ⟨F64.le_trans h1 hle, ?_⟩
      intro y hy
      rcases List.mem_cons.mp hy with rfl | hy
      · exact h1
      · exact h2 y hy
    · rename_i hle
      obtain ⟨h1, h2⟩ := ih acc
      have hxacc : F64.le (a.get_cost acc) (a.get_cost x) := by
        rcases F64.le_tot (a.get_cost x) (a.get_cost acc) with h | h
        · exact absurd h hle
        · exact h
      refine ⟨h1, ?_⟩
      intro y hy
      rcases List.mem_cons.mp hy with rfl | hy
      · exact F64.le_trans h1 hxacc
      · exact h2 y hy

theorem find_lowest_mem {a : Arena} {u : Node} (h : a.find_lowest_cost_node = some u) :
    u ∈ a.candidates := by
  unfold find_lowest_cost_node at h
  rcases hc : a.candidates with _ | ⟨n, rest⟩
  · rw [hc] at h
    simp at h
  · rw [hc] at h
    simp only [Option.some.injEq] at h
    rcases minByCostAux_mem a n rest with h2 | h2
    · rw [← h, h2]
      exact List.mem_cons_self n rest
    · rw [← h]
      exact List.mem_cons_of_mem n h2

theorem find_lowest_min {a : Arena} {u : Node} (h : a.find_lowest_cost_node = some u) :
    ∀ v ∈ a.candidates, F64.le (a.get_cost u) (a.get_cost v) := by
  unfold find_lowest_cost_node at h
  rcases hc : a.candidates with _ | ⟨n, rest⟩
  · rw [hc] at h
    simp at h
  · rw [hc] at h
    simp only [Option.some.injEq] at h
    obtain ⟨h1, h2⟩ := minByCostAux_min a n rest
    intro v hv
    rcases List.mem_cons.mp hv with rfl | hv2
    · exact h ▸ h1
    · exact h ▸ h2 v hv2

theorem find_lowest_none_iff (a : Arena) :
    a.find_lowest_cost_node = none ↔ a.candidates = [] := by
  unfold find_lowest_cost_node
  rcases hc : a.candidates with _ | ⟨n, rest⟩
  · simp
  · simp

theorem contains_iff_mem (l : List Node) (x : Node) : l.contains x = true ↔ x ∈ l := by
  induction l with
  | nil => simp
  | cons y ys ih =>
    simp only [List.contains_cons, Bool.or_eq_true, beq_iff_eq, List.mem_cons, ih]

theorem mem_candidates_iff (a : Arena) (x : Node) :
    x ∈ a.candidates ↔ x ∈ a.nodeVals ∧ x ∉ a.processed := by
  simp only [candidates, List.mem_filter, Bool.not_eq_true']
  constructor
  · rintro ⟨h1, h2⟩
    refine ⟨h1, fun hmem => ?_⟩
    rw [(Bool.not_eq_true _).symm] at h2
    exact (h2 : ¬ _) ((contains_iff_mem _ _).mpr hmem)
  · rintro ⟨h1, h2⟩
    refine ⟨h1, ?_⟩
    rw [Bool.eq_false_iff]
    intro hc
    exact h2 ((contains_iff_mem _ _).mp hc)

theorem contains_append_singleton (l : List Node) (x n : Node) :
    (l ++ [x]).contains n = (l.contains n || n == x) := by
  by_cases h1 : n ∈ l
  · have c1 : l.contains n = true := (contains_iff_mem _ _).mpr h1
    have c2 : (l ++ [x]).contains n = true :=
      (contains_iff_mem _ _).mpr (List.mem_append.mpr (Or.inl h1))
    rw [c1, c2, Bool.true_or]
  · have c1 : l.contains n = false := by
      rw [Bool.eq_false_iff]
      intro hc
      exact h1 ((contains_iff_mem _ _).mp hc)
    rw [c1, Bool.false_or]
    by_cases h2 : n = x
    · subst h2
      have c2 : (l ++ [n]).contains n = true :=
        (contains_iff_mem _ _).mpr (List.mem_append.mpr (Or.inr (by simp)))
      rw [c2]
      simp
    · have c2 : (l ++ [x]).contains n = false := by
        rw [Bool.eq_false_iff]
        intro hc
        rcases List.mem_append.mp ((contains_iff_mem _ _).mp hc) with h | h
        · exact h1 h
        · simp only [List.mem_singleton] at h
          exact h2 h
      rw [c2]
      simp [h2]

/-- After visiting a selected node, the frontier strictly shrinks. -/
theorem djikstraVisit_candidates_lt {a : Arena} {u : Node}
    (h : a.find_lowest_cost_node = some u) :
    (a.djikstraVisit u).candidates.length < a.candidates.length := by
  have hmem := find_lowest_mem h
  have hnodes : (a.djikstraVisit u).nodeVals = a.nodeVals := by
    simp [nodeVals, djikstraVisit_nodes]
  have hproc := djikstraVisit_processed a u
  have hfilter : (a.djikstraVisit u).candidates =
      a.candidates.filter (fun n => !(n == u)) := by
    unfold candidates
    rw [hnodes, hproc, List.filter_filter]
    congr 1
    funext n
    rw [contains_append_singleton, Bool.not_or]
    exact Bool.and_comm _ _
  rw [hfilter]
  have hgen : ∀ (l : List Node), u ∈ l → (l.filter (fun n => !(n == u))).length < l.length := by
    intro l hl
    induction l with
    | nil => simp at hl
    | cons x xs ih =>
      rw [List.filter_cons]
      by_cases hx : x = u
      · subst hx
        rw [if_neg (by simp)]
        simp only [List.length_cons]
        exact Nat.lt_succ_of_le (List.length_filter_le _ _)
      · rw [if_pos (by simp [hx])]
        have hu : u ∈ xs := by
          rcases List.mem_cons.mp hl with h2 | h2
          · exact absurd h2.symm hx
          · exact h2
        simp only [List.length_cons]
        exact Nat.succ_lt_succ (ih hu)
  exact hgen a.candidates hmem

/-- The `while let Some(node) = optional` relaxation loop of `Arena::djikstra`.
Terminates because each iteration strictly shrinks the frontier. -/
def djikstraLoop (a : Arena) : Arena :=
  match h : a.find_lowest_cost_node with
  | none => a
  | some node => djikstraLoop (a.djikstraVisit node)
termination_by a.candidates.length
decreasing_by exact djikstraVisit_candidates_lt h

theorem djikstraLoop_none {a : Arena} (h : a.find_lowest_cost_node = none) :
    djikstraLoop a = a := by
  rw [djikstraLoop.eq_def]
  split
  · rfl
  · rename_i node hn
    rw [h] at hn
    exact absurd hn (by simp)

theorem djikstraLoop_some {a : Arena} {u : Node} (h : a.find_lowest_cost_node = some u) :
    djikstraLoop a = djikstraLoop (a.djikstraVisit u) := by
  rw [djikstraLoop.eq_def]
  split
  · rename_i hn
    rw [h] at hn
    exact absurd hn (by simp)
  · rename_i node hn
    rw [h] at hn
    cases hn
    rfl

/-- The predecessor walk of `Arena::djikstra` (`while let Some(child) = ...`),
with fuel.  The returned list is in start-to-end order (the reverse of the
source's push order); `none` models divergence of the source's walk, which
cannot happen within `parents.length + 1` steps whenever the source
terminates, because a terminating walk never revisits a key. -/
def buildPath (parents : List (String × String)) : Nat → String → List String → Option (List String)
  | 0, _, _ => none
  | fuel + 1, cur, rest =>
    match lookupKey cur parents with
    | some child => buildPath parents fuel child (cur :: rest)
    | none => some (cur :: rest)

/-- The final fold of `Arena::djikstra`:
`path.iter().fold(String::new(), |acc, node| format!("{} -> {}", node, acc))`,
taking the path in the source's push order (end node first). -/
def renderPath (path : List String) : String :=
  path.foldl (fun acc node => node ++ " -> " ++ acc) ""

/-- `Arena::djikstra`: run the relaxation loop, then walk the predecessor
map back from the end node and render the result. -/
def djikstra (a : Arena) : Option String :=
  let af := djikstraLoop a
  match buildPath af.parents (af.parents.length + 1) af.end_.id [] with
  | none => none
  | some path => some (renderPath path.reverse)

end Arena

/-! ## Walks in the registered edge set (the specification-side path notion) -/

/-- `IsWalk E es a b`: `es` is a chain of edges of `E` leading from node `a`
to node `b`; the empty walk connects every node to itself. -/
inductive IsWalk (E : List Edge) : List Edge → Node → Node → Prop
  | nil (a : Node) : IsWalk E [] a a
  | cons {e : Edge} {es : List Edge} {a b : Node} :
      e ∈ E → e.start_node = a → IsWalk E es e.end_node b → IsWalk E (e :: es) a b

/-- The cost of a walk: the sum of its edge weights. -/
def walkCost (es : List Edge) : ℚ := (es.map Edge.weight).sum

theorem walkCost_nil : walkCost [] = 0 := rfl

theorem walkCost_cons (e : Edge) (es : List Edge) :
    walkCost (e :: es) = e.weight + walkCost es := by
  simp [walkCost]

theorem walkCost_append (es1 es2 : List Edge) :
    walkCost (es1 ++ es2) = walkCost es1 + walkCost es2 := by
  simp [walkCost]

theorem IsWalk.edges_mem {E es : List Edge} {a b : Node} (h : IsWalk E es a b) :
    ∀ e ∈ es, e ∈ E := by
  induction h with
  | nil => simp
  | cons he hs _ ih =>
    intro e2 he2
    rcases List.mem_cons.mp he2 with rfl | he2
    · assumption
    · exact ih e2 he2

theorem walkCost_nonneg {E es : List Edge} {a b : Node}
    (hE : ∀ e ∈ E, 0 ≤ e.weight) (h : IsWalk E es a b) : 0 ≤ walkCost es := by
  induction h with
  | nil => simp [walkCost]
  | cons he hs _ ih =>
    rw [walkCost_cons]
    have := hE _ he
    linarith

theorem IsWalk.append_edge {E es : List Edge} {a b : Node} (h : IsWalk E es a b)
    {e : Edge} (he : e ∈ E) : e.start_node = b → IsWalk E (es ++ [e]) a e.end_node := by
  induction h with
  | nil a =>
    intro hs
    exact IsWalk.cons he hs (IsWalk.nil _)
  | cons he2 hs2 htail ih =>
    intro hs
    exact IsWalk.cons he2 hs2 (ih hs)

/-- Inversion on the head of a walk. -/
theorem IsWalk.cases_head {E es : List Edge} {a b : Node} (h : IsWalk E es a b) :
    (es = [] ∧ a = b) ∨
      ∃ e tl, es = e :: tl ∧ e ∈ E ∧ e.start_node = a ∧ IsWalk E tl e.end_node b := by
  cases h with
  | nil => exact Or.inl ⟨rfl, rfl⟩
  | cons he hs ht => exact Or.inr ⟨_, _, rfl, he, hs, ht⟩

/-- Every walk is empty (and closed) or arrives along some edge of `E`. -/
theorem IsWalk.last_cases {E es : List Edge} {a b : Node} (h : IsWalk E es a b) :
    (es = [] ∧ a = b) ∨ ∃ e ∈ E, e.end_node = b := by
  induction h with
  | nil a => exact Or.inl ⟨rfl, rfl⟩
  | cons he hs htail ih =>
    rcases ih with ⟨_, rfl⟩ | ⟨e2, he2, hend⟩
    · exact Or.inr ⟨_, he, rfl⟩
    · exact Or.inr ⟨e2, he2, hend⟩

/-! ## The loop's reachable states -/

/-- One iteration of the relaxation loop as a step relation. -/
def DStep (a a' : Arena) : Prop :=
  ∃ u, a.find_lowest_cost_node = some u ∧ a' = a.djikstraVisit u

/-- All states the relaxation loop passes through, starting from `a`. -/
def LoopReaches (a a' : Arena) : Prop := Relation.ReflTransGen DStep a a'

theorem loopReaches_djikstraLoop (a : Arena) : LoopReaches a (Arena.djikstraLoop a) := by
  generalize hn : a.candidates.length = n
  induction n using Nat.strong_induction_on generalizing a with
  | _ n ih =>
    rcases hf : a.find_lowest_cost_node with _ | u
    · rw [Arena.djikstraLoop_none hf]
      exact Relation.ReflTransGen.refl
    · rw [Arena.djikstraLoop_some hf]
      have hlt := Arena.djikstraVisit_candidates_lt hf
      refine Relation.ReflTransGen.head ⟨u, hf, rfl⟩ ?_
      exact ih _ (hn ▸ hlt) _ rfl

theorem find_lowest_djikstraLoop (a : Arena) :
    (Arena.djikstraLoop a).find_lowest_cost_node = none := by
  generalize hn : a.candidates.length = n
  induction n using Nat.strong_induction_on generalizing a with
  | _ n ih =>
    rcases hf : a.find_lowest_cost_node with _ | u
    · rw [Arena.djikstraLoop_none hf]
      exact hf
    · rw [Arena.djikstraLoop_some hf]
      have hlt := Arena.djikstraVisit_candidates_lt hf
      exact ih _ (hn ▸ hlt) _ rfl

/-- Transport an invariant along the loop's reachable states. -/
theorem loopReaches_invariant {P : Arena → Prop}
    (hstep : ∀ b u, b.find_lowest_cost_node = some u → P b → P (b.djikstraVisit u))
    {a a' : Arena} (h : LoopReaches a a') (ha : P a) : P a' := by
  induction h with
  | refl => exact ha
  | tail _ hstep2 ih =>
    obtain ⟨u, hu, rfl⟩ := hstep2
    exact hstep _ u hu ih

/-! ## Concrete nodes, edges and arenas used as test inputs -/

def nodeA : Node := ⟨"a"⟩
def nodeE : Node := ⟨"e"⟩
def nodeS : Node := ⟨"s"⟩
def nodeT : Node := ⟨"t"⟩
def nodeX : Node := ⟨"x"⟩
def nodeY : Node := ⟨"y"⟩

/-- A pair of parallel edges from `s` to `t`, the more expensive one
registered first. -/
def edgePar7 : Edge := ⟨"p7", 7, nodeS, nodeT⟩

def edgePar2 : Edge := ⟨"p2", 2, nodeS, nodeT⟩

def edgeXY : Edge := ⟨"xy", 3, nodeX, nodeY⟩

def edgeAS : Edge := ⟨"as1", 1, nodeA, nodeS⟩

def edgeST5 : Edge := ⟨"st5", 5, nodeS, nodeT⟩

/-- Two registered nodes, no edges: the end node is disconnected. -/
def arenaDisc : Arena := (Arena.new nodeA nodeE).add_nodes [nodeA, nodeE]

/-- The parallel-edge graph. -/
def arenaPar : Arena :=
  ((Arena.new nodeS nodeT).add_nodes [nodeS, nodeT]).add_edges [edgePar7, edgePar2]

/-- The parallel-edge graph after its start node has been visited. -/
def arenaParAfterS : Arena := arenaPar.djikstraVisit nodeS

/-- An engine whose start and end node coincide. -/
def arenaSelf : Arena := (Arena.new nodeS nodeS).add_node nodeS

/-- Start equals end, plus a registered node `a` with an edge into `s`. -/
def arenaSelfIn : Arena := ((Arena.new nodeS nodeS).add_nodes [nodeS, nodeA]).add_edge edgeAS

/-- A registered edge whose start-point `x` was never registered as a node. -/
def arenaDangling : Arena :=
  ((Arena.new nodeA nodeE).add_nodes [nodeA, nodeE, nodeY]).add_edge edgeXY

/-- A two-node, one-edge graph (`s → t`, weight 5). -/
def arenaLine : Arena :=
  ((Arena.new nodeS nodeT).add_nodes [nodeS, nodeT]).add_edges [edgeST5]

/-! ## C3, C4, C5, C7, C9, C10 -/

/-- C3: on a pair of non-adjacent nodes the weight lookup does not produce a
`NoSuchEdge` error value for the caller — the source calls `.unwrap()` on the
failed search, i.e. it panics (`none` in this model).  This evaluates the
code at the failing input. -/
theorem get_weight_no_edge_panics : (Arena.new nodeA nodeE).get_weight nodeA nodeE = none := by
  decide

/-- C4 (counterexample): a node that was never assigned a distance is
reported at cost `f64::MAX`, which differs from the `f64::INFINITY` sentinel
the ledger is seeded with for the end node at construction. -/
theorem get_cost_default_ne_seeded_sentinel :
    (Arena.new nodeA nodeE).get_cost ⟨"c"⟩ = F64.fin f64MAX ∧
    lookupKey nodeE.id (Arena.new nodeA nodeE).costs = some F64.inf ∧
    F64.fin f64MAX ≠ F64.inf := by
  refine ⟨by with_unfolding_all rfl, by decide, by decide⟩

/-- C4 (amended): querying a node with no ledger entry yields the fixed
sentinel `f64::MAX`; the end node is seeded with the distinct sentinel
`f64::INFINITY`. -/
theorem unreached_cost_sentinel :
    (∀ (a : Arena) (n : Node), lookupKey n.id a.costs = none → a.get_cost n = F64.fin f64MAX) ∧
    (∀ s t : Node, s.id ≠ t.id →
      lookupKey t.id (Arena.new s t).costs = some F64.inf ∧
      lookupKey s.id (Arena.new s t).costs = some (F64.fin 0)) := by
  constructor
  · intro a n h
    unfold Arena.get_cost
    rw [h]
  · intro s t hne
    constructor
    · show lookupKey t.id (upsert t.id F64.inf (upsert s.id (F64.fin 0) [])) = some F64.inf
      exact lookupKey_upsert_self t.id F64.inf (upsert s.id (F64.fin 0) [])
    · show lookupKey s.id (upsert t.id F64.inf (upsert s.id (F64.fin 0) [])) = some (F64.fin 0)
      rw [lookupKey_upsert_ne F64.inf (upsert s.id (F64.fin 0) []) hne]
      exact lookupKey_upsert_self s.id (F64.fin 0) []

theorem unreached_cost_sentinel_witness :
    (Arena.new nodeA nodeE).get_cost ⟨"c"⟩ = F64.fin f64MAX ∧
    lookupKey nodeE.id (Arena.new nodeA nodeE).costs = some F64.inf :=
  ⟨unreached_cost_sentinel.1 (Arena.new nodeA nodeE) ⟨"c"⟩ (by decide),
   (unreached_cost_sentinel.2 nodeA nodeE (by decide)).1⟩

/-- C5 (counterexample): a node that is not present in the node registry can
still have a non-empty neighbor list, because edge registration never checks
that the edge's start-point is a registered node. -/
theorem find_neighbors_unregistered_nonempty :
    lookupKey nodeX.id arenaDangling.nodes = none ∧
    arenaDangling.find_neighbors nodeX = [nodeY] ∧
    ([nodeY] : List Node) ≠ [] := by
  refine ⟨by decide, by decide, by decide⟩

/-- C5 (amended): the neighbor query returns exactly the end-points of
registered edges whose start-point is the queried node, and is empty exactly
when no registered edge starts there (whether the node itself is registered
is not consulted). -/
theorem find_neighbors_spec (a : Arena) (n : Node) :
    (∀ x, x ∈ a.find_neighbors n ↔ ∃ e ∈ a.edgeVals, e.start_node = n ∧ e.end_node = x) ∧
    (a.find_neighbors n = [] ↔ ∀ e ∈ a.edgeVals, e.start_node ≠ n) := by
  constructor
  · intro x
    unfold Arena.find_neighbors
    constructor
    · intro h
      rcases List.mem_map.mp h with ⟨e, hef, heq⟩
      obtain ⟨hemem, hstart⟩ := List.mem_filter.mp hef
      exact ⟨e, hemem, by simpa using hstart, heq⟩
    · rintro ⟨e, hemem, hstart, hend⟩
      exact List.mem_map.mpr ⟨e, List.mem_filter.mpr ⟨hemem, by simpa using hstart⟩, hend⟩
  · unfold Arena.find_neighbors
    rw [List.map_eq_nil_iff, List.filter_eq_nil_iff]
    constructor
    · intro h e he hs
      exact h e he (by simpa using hs)
    · intro h e he hs
      exact h e he (by simpa using hs)

theorem find_neighbors_spec_witness : nodeY ∈ arenaDangling.find_neighbors nodeX :=
  ((find_neighbors_spec arenaDangling nodeX).1 nodeY).mpr
    ⟨edgeXY, by decide, by decide, by decide⟩

/-- C7: the frontier selection returns a registered, unprocessed node of
minimal tentative cost, and returns nothing exactly when every registered
node is processed. -/
theorem frontier_selection_spec (a : Arena) :
    (a.find_lowest_cost_node = none ↔ ∀ n ∈ a.nodeVals, n ∈ a.processed) ∧
    ∀ u, a.find_lowest_cost_node = some u →
      u ∈ a.nodeVals ∧ u ∉ a.processed ∧
      ∀ v ∈ a.nodeVals, v ∉ a.processed → F64.le (a.get_cost u) (a.get_cost v) := by
  constructor
  · rw [Arena.find_lowest_none_iff, List.eq_nil_iff_forall_not_mem]
    constructor
    · intro h n hn
      by_contra hp
      exact h n ((a.mem_candidates_iff n).mpr ⟨hn, hp⟩)
    · intro h n hmem
      obtain ⟨h1, h2⟩ := (a.mem_candidates_iff n).mp hmem
      exact h2 (h n h1)
  · intro u hu
    obtain ⟨h1, h2⟩ := (a.mem_candidates_iff u).mp (Arena.find_lowest_mem hu)
    exact ⟨h1, h2, fun v hv hnv =>
      Arena.find_lowest_min hu v ((a.mem_candidates_iff v).mpr ⟨hv, hnv⟩)⟩

theorem frontier_selection_spec_witness :
    nodeS ∈ arenaLine.nodeVals ∧ nodeS ∉ arenaLine.processed ∧
    ∀ v ∈ arenaLine.nodeVals, v ∉ arenaLine.processed →
      F64.le (arenaLine.get_cost nodeS) (arenaLine.get_cost v) :=
  (frontier_selection_spec arenaLine).2 nodeS (by decide)

/-- C9: construction seeds the cost ledger for the start and end node but
registers no node; the frontier only ever returns registered nodes, and the
processed set only ever receives registered nodes. -/
theorem construction_registers_nothing :
    (∀ s t : Node, (Arena.new s t).nodes = [] ∧
      (lookupKey s.id (Arena.new s t).costs).isSome ∧
      (lookupKey t.id (Arena.new s t).costs).isSome) ∧
    (∀ (a : Arena) (u : Node), a.find_lowest_cost_node = some u → u ∈ a.nodeVals) ∧
    (∀ a : Arena, (∀ n ∈ a.processed, n ∈ a.nodeVals) →
      ∀ n ∈ (Arena.djikstraLoop a).processed, n ∈ (Arena.djikstraLoop a).nodeVals) := by
  refine ⟨?_, ?_, ?_⟩
  · intro s t
    refine ⟨rfl, ?_, ?_⟩
    · show (lookupKey s.id (upsert t.id F64.inf (upsert s.id (F64.fin 0) []))).isSome = true
      exact lookupKey_isSome_of_upsert (by rw [lookupKey_upsert_self]; rfl)
    · show (lookupKey t.id (upsert t.id F64.inf (upsert s.id (F64.fin 0) []))).isSome = true
      rw [lookupKey_upsert_self]
      rfl
  · intro a u hu
    exact ((a.mem_candidates_iff u).mp (Arena.find_lowest_mem hu)).1
  · intro a hinv
    have hstep : ∀ (b : Arena) (u : Node), b.find_lowest_cost_node = some u →
        (∀ n ∈ b.processed, n ∈ b.nodeVals) →
        ∀ n ∈ (b.djikstraVisit u).processed, n ∈ (b.djikstraVisit u).nodeVals := by
      intro b u hu hp n hn
      rw [Arena.djikstraVisit_processed] at hn
      have hnv : (b.djikstraVisit u).nodeVals = b.nodeVals := by
        simp [Arena.nodeVals, Arena.djikstraVisit_nodes]
      rw [hnv]
      rcases List.mem_append.mp hn with h | h
      · exact hp n h
      · simp only [List.mem_singleton] at h
        subst h
        exact ((b.mem_candidates_iff n).mp (Arena.find_lowest_mem hu)).1
    exact loopReaches_invariant hstep (loopReaches_djikstraLoop a) hinv

theorem construction_registers_nothing_witness :
    (Arena.new nodeS nodeT).nodes = [] ∧ nodeS ∈ arenaLine.nodeVals :=
  ⟨(construction_registers_nothing.1 nodeS nodeT).1,
   construction_registers_nothing.2.1 arenaLine nodeS (by decide)⟩

/-- C10: every neighbor returned by the neighbor query has a registered edge
from the queried node, so the `unwrap` in the relaxation loop's weight
lookup can never hit the `None` branch. -/
theorem relax_weight_lookup_isSome (a : Arena) (u v : Node)
    (h : v ∈ a.find_neighbors u) : (a.get_weight u v).isSome := by
  unfold Arena.find_neighbors at h
  rcases List.mem_map.mp h with ⟨e, hef, heq⟩
  obtain ⟨hemem, hstart⟩ := List.mem_filter.mp hef
  unfold Arena.get_weight
  rw [Option.isSome_map']
  rw [List.find?_isSome]
  refine ⟨e, hemem, ?_⟩
  have hs : e.start_node = u := by simpa using hstart
  rw [Bool.and_eq_true, beq_iff_eq, beq_iff_eq]
  exact ⟨hs, heq⟩

theorem relax_weight_lookup_isSome_witness : (arenaLine.get_weight nodeS nodeT).isSome :=
  relax_weight_lookup_isSome arenaLine nodeS nodeT (by decide)

/-! ## C2, and the counterexamples to C1, C6, C8 -/

/-- C2: on a graph whose end node is unreachable, `djikstra` succeeds with
the degenerate partial rendering `"e -> "` instead of reporting a
`NoPathFound` failure.  This evaluates the code at the failing input. -/
theorem djikstra_disconnected_partial_output : arenaDisc.djikstra = some "e -> " := by
  have h1 : Arena.djikstraLoop arenaDisc = Arena.djikstraLoop (arenaDisc.djikstraVisit nodeA) :=
    Arena.djikstraLoop_some (by with_unfolding_all rfl)
  have h2 : Arena.djikstraLoop (arenaDisc.djikstraVisit nodeA) =
      Arena.djikstraLoop ((arenaDisc.djikstraVisit nodeA).djikstraVisit nodeE) :=
    Arena.djikstraLoop_some (by with_unfolding_all rfl)
  have h3 : Arena.djikstraLoop ((arenaDisc.djikstraVisit nodeA).djikstraVisit nodeE) =
      (arenaDisc.djikstraVisit nodeA).djikstraVisit nodeE :=
    Arena.djikstraLoop_none (by with_unfolding_all rfl)
  have hfin : Arena.djikstraLoop arenaDisc =
      (arenaDisc.djikstraVisit nodeA).djikstraVisit nodeE := by rw [h1, h2, h3]
  simp only [Arena.djikstra, hfin]
  with_unfolding_all rfl

/-- C6 (counterexample): when the engine is constructed with `start = end`,
the end-node seeding overwrites the start node's `0`, so querying the start
node's cost yields `INFINITY` rather than `0`, at construction and ever
after. -/
theorem start_cost_overwritten_when_start_eq_end :
    arenaSelf.get_cost nodeS = F64.inf ∧
    (Arena.djikstraLoop arenaSelf).get_cost nodeS = F64.inf ∧
    F64.inf ≠ F64.fin 0 := by
  have h1 : Arena.djikstraLoop arenaSelf = Arena.djikstraLoop (arenaSelf.djikstraVisit nodeS) :=
    Arena.djikstraLoop_some (by with_unfolding_all rfl)
  have h2 : Arena.djikstraLoop (arenaSelf.djikstraVisit nodeS) =
      arenaSelf.djikstraVisit nodeS :=
    Arena.djikstraLoop_none (by with_unfolding_all rfl)
  refine ⟨by with_unfolding_all rfl, ?_, by decide⟩
  rw [h1, h2]
  with_unfolding_all rfl

/-- C8 (counterexample): with `start = end` and an incoming edge from a
registered node `a`, the query succeeds but its output renders the
predecessor walk `[a, s]`, which begins at `a`, not at the start node. -/
theorem djikstra_output_not_starting_at_start :
    arenaSelfIn.djikstra = some "a -> s -> " ∧
    Arena.buildPath (Arena.djikstraLoop arenaSelfIn).parents
      ((Arena.djikstraLoop arenaSelfIn).parents.length + 1)
      (Arena.djikstraLoop arenaSelfIn).end_.id [] = some ["a", "s"] ∧
    arenaSelfIn.start = nodeS ∧ nodeS.id = "s" ∧
    (["a", "s"] : List String).head? = some "a" ∧ "a" ≠ "s" := by
  have h1 : Arena.djikstraLoop arenaSelfIn =
      Arena.djikstraLoop (arenaSelfIn.djikstraVisit nodeA) :=
    Arena.djikstraLoop_some (by with_unfolding_all rfl)
  have h2 : Arena.djikstraLoop (arenaSelfIn.djikstraVisit nodeA) =
      Arena.djikstraLoop ((arenaSelfIn.djikstraVisit nodeA).djikstraVisit nodeS) :=
    Arena.djikstraLoop_some (by with_unfolding_all rfl)
  have h3 : Arena.djikstraLoop ((arenaSelfIn.djikstraVisit nodeA).djikstraVisit nodeS) =
      (arenaSelfIn.djikstraVisit nodeA).djikstraVisit nodeS :=
    Arena.djikstraLoop_none (by with_unfolding_all rfl)
  have hfin : Arena.djikstraLoop arenaSelfIn =
      (arenaSelfIn.djikstraVisit nodeA).djikstraVisit nodeS := by rw [h1, h2, h3]
  refine ⟨?_, ?_, by decide, by decide, by decide, by decide⟩
  · simp only [Arena.djikstra, hfin]
    with_unfolding_all rfl
  · rw [hfin]
    with_unfolding_all rfl

/-- C1 (counterexample): with two parallel edges `s → t` of weights 7 (first
registered) and 2, the engine records cost 7 for `t` at the moment `t` is
added to the processed set, while the true minimum cost over all walks from
`s` to `t` is 2: relaxation always reads the first-found edge weight. -/
theorem processed_cost_not_true_minimum :
    arenaPar.find_lowest_cost_node = some nodeS ∧
    arenaParAfterS.find_lowest_cost_node = some nodeT ∧
    arenaParAfterS.get_cost nodeT = F64.fin 7 ∧
    (arenaParAfterS.djikstraVisit nodeT).get_cost nodeT = F64.fin 7 ∧
    nodeT ∈ (arenaParAfterS.djikstraVisit nodeT).processed ∧
    IsWalk arenaPar.edgeVals [edgePar2] nodeS nodeT ∧
    walkCost [edgePar2] = 2 ∧
    (∀ es, IsWalk arenaPar.edgeVals es nodeS nodeT → 2 ≤ walkCost es) ∧
    F64.fin 7 ≠ F64.fin 2 := by
  have hE : arenaPar.edgeVals = [edgePar7, edgePar2] := by with_unfolding_all rfl
  refine ⟨by with_unfolding_all rfl, by with_unfolding_all rfl, by with_unfolding_all rfl,
    by with_unfolding_all rfl, by with_unfolding_all decide, ?_, by with_unfolding_all rfl,
    ?_, by with_unfolding_all decide⟩
  · rw [hE]
    exact IsWalk.cons (by simp) rfl (IsWalk.nil _)
  · intro es h
    rcases h.cases_head with ⟨heq, hst⟩ | ⟨e, tl, rfl, hmem, hstart, htl⟩
    · exact absurd hst (by decide)
    · rw [hE] at hmem
      have hcost : ∀ e2 : Edge, e2 = edgePar7 ∨ e2 = edgePar2 → (2 : ℚ) ≤ e2.weight := by
        rintro e2 (rfl | rfl)
        · norm_num [edgePar7]
        · norm_num [edgePar2]
      have hmem2 : e = edgePar7 ∨ e = edgePar2 := by
        rcases List.mem_cons.mp hmem with h1 | h1
        · exact Or.inl h1
        · simp only [List.mem_singleton] at h1
          exact Or.inr h1
      have hend : e.end_node = nodeT := by
        rcases hmem2 with rfl | rfl
        · rfl
        · rfl
      have htl2 : tl = [] := by
        rcases htl.cases_head with ⟨h4, _⟩ | ⟨e2, tl2, rfl, hmem3, hstart2, _⟩
        · exact h4
        · rw [hE] at hmem3
          rw [hend] at hstart2
          have hmem4 : e2 = edgePar7 ∨ e2 = edgePar2 := by
            rcases List.mem_cons.mp hmem3 with h1 | h1
            · exact Or.inl h1
            · simp only [List.mem_singleton] at h1
              exact Or.inr h1
          rcases hmem4 with rfl | rfl
          · exact absurd hstart2 (by decide)
          · exact absurd hstart2 (by decide)
      subst htl2
      rw [walkCost_cons, walkCost_nil]
      have := hcost e hmem2
      linarith

/-! ## Construction lemmas and a light invariant for the start node's cost -/

theorem f64MAX_pos : 0 < f64MAX := by norm_num [f64MAX]

theorem Arena.add_nodes_costs (a : Arena) (ns : List Node) : (a.add_nodes ns).costs = a.costs := by
  induction ns generalizing a with
  | nil => rfl
  | cons x xs ih => simpa [Arena.add_nodes, Arena.add_node] using ih _

theorem Arena.add_edges_costs (a : Arena) (es : List Edge) : (a.add_edges es).costs = a.costs := by
  induction es generalizing a with
  | nil => rfl
  | cons x xs ih => simpa [Arena.add_edges, Arena.add_edge] using ih _

theorem Arena.add_nodes_edges (a : Arena) (ns : List Node) : (a.add_nodes ns).edges = a.edges := by
  induction ns generalizing a with
  | nil => rfl
  | cons x xs ih => simpa [Arena.add_nodes, Arena.add_node] using ih _

theorem Arena.add_nodes_parents (a : Arena) (ns : List Node) :
    (a.add_nodes ns).parents = a.parents := by
  induction ns generalizing a with
  | nil => rfl
  | cons x xs ih => simpa [Arena.add_nodes, Arena.add_node] using ih _

theorem Arena.add_edges_parents (a : Arena) (es : List Edge) :
    (a.add_edges es).parents = a.parents := by
  induction es generalizing a with
  | nil => rfl
  | cons x xs ih => simpa [Arena.add_edges, Arena.add_edge] using ih _

theorem Arena.add_nodes_processed (a : Arena) (ns : List Node) :
    (a.add_nodes ns).processed = a.processed := by
  induction ns generalizing a with
  | nil => rfl
  | cons x xs ih => simpa [Arena.add_nodes, Arena.add_node] using ih _

theorem Arena.add_edges_processed (a : Arena) (es : List Edge) :
    (a.add_edges es).processed = a.processed := by
  induction es generalizing a with
  | nil => rfl
  | cons x xs ih => simpa [Arena.add_edges, Arena.add_edge] using ih _

theorem Arena.add_nodes_start (a : Arena) (ns : List Node) : (a.add_nodes ns).start = a.start := by
  induction ns generalizing a with
  | nil => rfl
  | cons x xs ih => simpa [Arena.add_nodes, Arena.add_node] using ih _

theorem Arena.add_edges_start (a : Arena) (es : List Edge) : (a.add_edges es).start = a.start := by
  induction es generalizing a with
  | nil => rfl
  | cons x xs ih => simpa [Arena.add_edges, Arena.add_edge] using ih _

theorem Arena.add_nodes_end (a : Arena) (ns : List Node) : (a.add_nodes ns).end_ = a.end_ := by
  induction ns generalizing a with
  | nil => rfl
  | cons x xs ih => simpa [Arena.add_nodes, Arena.add_node] using ih _

theorem Arena.add_edges_end (a : Arena) (es : List Edge) : (a.add_edges es).end_ = a.end_ := by
  induction es generalizing a with
  | nil => rfl
  | cons x xs ih => simpa [Arena.add_edges, Arena.add_edge] using ih _

/-- Every registered edge value was one of the edges handed to `add_edges`. -/
theorem Arena.add_edges_edgeVals_subset (a : Arena) (es : List Edge) :
    ∀ e ∈ (a.add_edges es).edgeVals, e ∈ a.edgeVals ∨ e ∈ es := by
  induction es generalizing a with
  | nil =>
    intro e he
    exact Or.inl he
  | cons x xs ih =>
    intro e he
    rcases ih (a.add_edge x) e he with h | h
    · unfold Arena.add_edge Arena.edgeVals at h
      rcases mem_upsert_vals h with h2 | h2
      · exact Or.inr (by simp [h2])
      · exact Or.inl h2
    · exact Or.inr (by simp [h])

/-- A successful weight lookup returns the weight of a registered edge
between the two nodes. -/
theorem Arena.get_weight_some_mem {a : Arena} {u v : Node} {w : ℚ}
    (h : a.get_weight u v = some w) :
    ∃ e ∈ a.edgeVals, e.start_node = u ∧ e.end_node = v ∧ e.weight = w := by
  unfold Arena.get_weight at h
  rcases hf : a.edgeVals.find? (fun e => e.start_node == u && e.end_node == v) with _ | e
  · rw [hf] at h
    simp at h
  · rw [hf] at h
    have hew : e.weight = w := by simpa using h
    have hp := List.find?_some hf
    rw [Bool.and_eq_true, beq_iff_eq, beq_iff_eq] at hp
    exact ⟨e, List.mem_of_find?_eq_some hf, hp.1, hp.2, hew⟩

/-- The light invariant for the start-cost claim: edges fixed, start seeded
at cost 0, all ledger entries non-negative. -/
def NInv (s : Node) (E : List (String × Edge)) (a : Arena) : Prop :=
  a.edges = E ∧
  lookupKey s.id a.costs = some (F64.fin 0) ∧
  (∀ id q, lookupKey id a.costs = some (F64.fin q) → 0 ≤ q)

theorem foldl_relax_preserve {P : Arena → Prop} {u : Node}
    (h : ∀ b v, P b → P (b.relaxOne u v)) :
    ∀ (l : List Node) (b : Arena), P b → P (l.foldl (fun acc nb => acc.relaxOne u nb) b) := by
  intro l
  induction l with
  | nil =>
    intro b hb
    exact hb
  | cons x xs ih =>
    intro b hb
    exact ih _ (h b x hb)

theorem relaxOne_NInv {s : Node} {E : List (String × Edge)}
    (hw : ∀ e ∈ E.map Prod.snd, 0 ≤ e.weight) (b : Arena) (u v : Node)
    (hb : NInv s E b) : NInv s E (b.relaxOne u v) := by
  obtain ⟨hE, hs, hnn⟩ := hb
  unfold Arena.relaxOne
  rcases hgw : b.get_weight u v with _ | w
  · exact ⟨hE, hs, hnn⟩
  · show NInv s E (if F64.lt (F64.add (b.get_cost u) w) (b.get_cost v) then
      { b with costs := upsert v.id (F64.add (b.get_cost u) w) b.costs,
               parents := upsert v.id u.id b.parents } else b)
    obtain ⟨e, hemem, _, _, hweq⟩ := Arena.get_weight_some_mem hgw
    have hw0 : 0 ≤ w := by
      rw [← hweq]
      exact hw e (by rw [← hE]; exact hemem)
    have hnew : ∀ q, F64.add (b.get_cost u) w = F64.fin q → 0 ≤ q := by
      intro q hq
      unfold Arena.get_cost at hq
      rcases hl : lookupKey u.id b.costs with _ | c
      · rw [hl] at hq
        simp only [F64.add] at hq
        cases hq
        have := f64MAX_pos
        linarith
      · rw [hl] at hq
        cases c with
        | fin qc =>
          simp only [F64.add] at hq
          cases hq
          have := hnn u.id qc hl
          linarith
        | inf => simp [F64.add] at hq
    split
    · rename_i hlt
      refine ⟨hE, ?_, ?_⟩
      · by_cases hvs : v.id = s.id
        · exfalso
          have hcv : b.get_cost v = F64.fin 0 := by
            unfold Arena.get_cost
            rw [hvs, hs]
          rw [hcv] at hlt
          rcases hadd : F64.add (b.get_cost u) w with q | _
          · rw [hadd] at hlt
            have := hnew q hadd
            have : ¬ F64.lt (F64.fin q) (F64.fin 0) := by
              simp only [F64.lt]
              linarith
            exact this hlt
          · rw [hadd] at hlt
            exact hlt
        · rw [lookupKey_upsert_ne _ _ (fun h2 => hvs h2.symm)]
          exact hs
      · intro id q hq
        by_cases hid : id = v.id
        · rw [hid, lookupKey_upsert_self] at hq
          exact hnew q (by injection hq)
        · rw [lookupKey_upsert_ne _ _ hid] at hq
          exact hnn id q hq
    · exact ⟨hE, hs, hnn⟩

theorem visit_NInv {s : Node} {E : List (String × Edge)}
    (hw : ∀ e ∈ E.map Prod.snd, 0 ≤ e.weight) (b : Arena) (u : Node)
    (hb : NInv s E b) : NInv s E (b.djikstraVisit u) := by
  unfold Arena.djikstraVisit
  have h := foldl_relax_preserve (fun b2 v => relaxOne_NInv hw b2 u v)
    (b.find_neighbors u) b hb
  exact ⟨h.1, h.2.1, h.2.2⟩

/-- C6 (amended): provided the start and end nodes are distinct (the seeding
overwrites the start cost when they coincide), the start node's cost is 0 at
construction, at every state the relaxation loop passes through, and after
the loop, for non-negative edge weights. -/
theorem start_cost_zero_throughout (s t : Node) (ns : List Node) (es : List Edge)
    (hne : s.id ≠ t.id) (hw : ∀ e ∈ es, 0 ≤ e.weight) :
    (((Arena.new s t).add_nodes ns).add_edges es).get_cost s = F64.fin 0 ∧
    (∀ a, LoopReaches (((Arena.new s t).add_nodes ns).add_edges es) a →
      a.get_cost s = F64.fin 0) ∧
    (Arena.djikstraLoop (((Arena.new s t).add_nodes ns).add_edges es)).get_cost s =
      F64.fin 0 := by
  set A0 := ((Arena.new s t).add_nodes ns).add_edges es with hA0
  have hcosts : A0.costs = upsert t.id F64.inf (upsert s.id (F64.fin 0) []) := by
    rw [hA0, Arena.add_edges_costs, Arena.add_nodes_costs]
    rfl
  have hseed : lookupKey s.id A0.costs = some (F64.fin 0) := by
    rw [hcosts, lookupKey_upsert_ne _ _ hne]
    exact lookupKey_upsert_self _ _ _
  have hwE : ∀ e ∈ A0.edges.map Prod.snd, 0 ≤ e.weight := by
    intro e he
    have : e ∈ ((Arena.new s t).add_nodes ns).edgeVals ∨ e ∈ es :=
      Arena.add_edges_edgeVals_subset _ es e he
    rcases this with h | h
    · rw [Arena.edgeVals, Arena.add_nodes_edges] at h
      simp [Arena.new] at h
    · exact hw e h
  have hinv0 : NInv s A0.edges A0 := by
    refine ⟨rfl, hseed, ?_⟩
    intro id q hq
    rw [hcosts] at hq
    by_cases hid : id = t.id
    · rw [hid, lookupKey_upsert_self] at hq
      cases hq
    · rw [lookupKey_upsert_ne _ _ hid] at hq
      by_cases his : id = s.id
      · rw [his, lookupKey_upsert_self] at hq
        injection hq with hq2
        injection hq2 with hq3
        rw [← hq3]
      · rw [lookupKey_upsert_ne _ _ his] at hq
        cases hq
  have hreach : ∀ a, LoopReaches A0 a → NInv s A0.edges a := by
    intro a hr
    exact loopReaches_invariant (fun b u _ hb => visit_NInv hwE b u hb) hr hinv0
  have hget : ∀ a, NInv s A0.edges a → a.get_cost s = F64.fin 0 := by
    intro a ha
    unfold Arena.get_cost
    rw [ha.2.1]
  refine ⟨hget A0 hinv0, fun a hr => hget a (hreach a hr), ?_⟩
  exact hget _ (hreach _ (loopReaches_djikstraLoop A0))

/-! ## The main loop invariant (classical Dijkstra correctness) -/

/-- The graph-side hypotheses for the correctness claims: distinct start and
end identifiers, non-negative weights, referential integrity (the spec's
Graph Store invariant), a registered start node, weight-consistent parallel
edges (the spec's §4.4 tightening), and the spec's §4.2 sentinel caveat that
reachable nodes admit walks cheaper than the `f64::MAX` sentinel. -/
structure GraphHyps (s t : Node) (NMAP : List (String × Node))
    (EMAP : List (String × Edge)) : Prop where
  hne : s.id ≠ t.id
  hw : ∀ e ∈ EMAP.map Prod.snd, 0 ≤ e.weight
  hreg : ∀ e ∈ EMAP.map Prod.snd,
    e.start_node ∈ NMAP.map Prod.snd ∧ e.end_node ∈ NMAP.map Prod.snd
  hs : s ∈ NMAP.map Prod.snd
  hpar : ∀ e ∈ EMAP.map Prod.snd, ∀ e2 ∈ EMAP.map Prod.snd,
    e.start_node = e2.start_node → e.end_node = e2.end_node → e.weight = e2.weight
  hb : ∀ (v : Node) (es : List Edge), IsWalk (EMAP.map Prod.snd) es s v →
    ∃ es2, IsWalk (EMAP.map Prod.snd) es2 s v ∧ walkCost es2 < f64MAX

/-- The relaxation-loop invariant.  `s`, `t` are the designated start and end
nodes, `NMAP`/`EMAP` the (constant) node and edge registries. -/
structure DijkInv (s t : Node) (NMAP : List (String × Node)) (EMAP : List (String × Edge))
    (a : Arena) : Prop where
  nodes_eq : a.nodes = NMAP
  edges_eq : a.edges = EMAP
  start_eq : a.start = s
  end_eq : a.end_ = t
  parents_nodup : (a.parents.map Prod.fst).Nodup
  start_cost : lookupKey s.id a.costs = some (F64.fin 0)
  start_noparent : lookupKey s.id a.parents = none
  sound : ∀ id q, lookupKey id a.costs = some (F64.fin q) →
    (∃ es, IsWalk (EMAP.map Prod.snd) es s ⟨id⟩ ∧ walkCost es = q) ∨ f64MAX ≤ q
  hasParent : ∀ id q, lookupKey id a.costs = some (F64.fin q) →
    id = s.id ∨ (lookupKey id a.parents).isSome
  parentEdge : ∀ vid uid, lookupKey vid a.parents = some uid →
    ∃ e ∈ EMAP.map Prod.snd, e.start_node.id = uid ∧ e.end_node.id = vid ∧
      ∃ qv, lookupKey vid a.costs = some (F64.fin qv) ∧
        F64.le (F64.add (a.get_cost ⟨uid⟩) e.weight) (F64.fin qv)
  parentProcessed : ∀ vid uid, lookupKey vid a.parents = some uid →
    (⟨uid⟩ : Node) ∈ a.processed
  parentOrder : ∀ vid uid, lookupKey vid a.parents = some uid →
    (⟨vid⟩ : Node) ∈ a.processed →
    a.processed.indexOf (⟨uid⟩ : Node) < a.processed.indexOf (⟨vid⟩ : Node)
  procMin : ∀ u ∈ a.processed, ∀ v ∈ NMAP.map Prod.snd, v ∉ a.processed →
    F64.le (a.get_cost u) (a.get_cost v)
  procRelaxed : ∀ u ∈ a.processed, ∀ e ∈ EMAP.map Prod.snd, e.start_node = u →
    F64.le (a.get_cost e.end_node) (F64.add (a.get_cost u) e.weight)
  procBound : ∀ u ∈ a.processed, ∀ es, IsWalk (EMAP.map Prod.snd) es s u →
    ∃ q, a.get_cost u = F64.fin q ∧ q ≤ walkCost es

/-- Following any walk from the start, either some frontier node is already
at most the walk's prefix cost, or the walk stays inside the processed set
(the classical "cover" step of the Dijkstra proof). -/
theorem walk_cost_bound {s t : Node} {NMAP : List (String × Node)}
    {EMAP : List (String × Edge)} (G : GraphHyps s t NMAP EMAP) {a : Arena}
    (inv : DijkInv s t NMAP EMAP a) :
    ∀ (es : List Edge) (x y : Node), IsWalk (EMAP.map Prod.snd) es x y →
      x ∈ NMAP.map Prod.snd →
      ∀ qx : ℚ, F64.le (a.get_cost x) (F64.fin qx) →
      (∃ z ∈ a.candidates, F64.le (a.get_cost z) (F64.fin (qx + walkCost es))) ∨
      (y ∈ a.processed ∧ F64.le (a.get_cost y) (F64.fin (qx + walkCost es))) := by
  intro es
  induction es with
  | nil =>
    intro x y hwk hx qx hqx
    have hyx : y = x := by
      rcases hwk.cases_head with ⟨_, hxy⟩ | ⟨e, tl, habs, _⟩
      · exact hxy.symm
      · exact absurd habs (by simp)
    subst hyx
    rw [walkCost_nil, add_zero]
    by_cases hp : y ∈ a.processed
    · exact Or.inr ⟨hp, hqx⟩
    · refine Or.inl ⟨y, ?_, hqx⟩
      rw [a.mem_candidates_iff]
      exact ⟨by rw [Arena.nodeVals, inv.nodes_eq]; exact hx, hp⟩
  | cons e es' ih =>
    intro x y hwk hx qx hqx
    have hinv : e ∈ EMAP.map Prod.snd ∧ e.start_node = x ∧
        IsWalk (EMAP.map Prod.snd) es' e.end_node y := by
      rcases hwk.cases_head with ⟨habs, _⟩ | ⟨e2, tl, heq, hmem, hst, htl⟩
      · exact absurd habs (by simp)
      · injection heq with h1 h2
        subst h1
        subst h2
        exact ⟨hmem, hst, htl⟩
    obtain ⟨hmem, hst, htl⟩ := hinv
    have hwalk_nonneg : 0 ≤ walkCost es' := walkCost_nonneg G.hw htl
    have hw0 : 0 ≤ e.weight := G.hw e hmem
    by_cases hp : x ∈ a.processed
    · have hrel := inv.procRelaxed x hp e hmem hst
      have hle2 : F64.le (a.get_cost e.end_node) (F64.fin (qx + e.weight)) := by
        have := F64.add_le_add_right e.weight hqx
        rw [F64.add_fin] at this
        exact F64.le_trans hrel this
      have hend : e.end_node ∈ NMAP.map Prod.snd := (G.hreg e hmem).2
      rcases ih e.end_node y htl hend (qx + e.weight) hle2 with ⟨z, hz, hzle⟩ | ⟨hyp, hyle⟩
      · refine Or.inl ⟨z, hz, ?_⟩
        rw [walkCost_cons]
        have : qx + e.weight + walkCost es' = qx + (e.weight + walkCost es') := by ring
        rw [← this]
        exact hzle
      · refine Or.inr ⟨hyp, ?_⟩
        rw [walkCost_cons]
        have : qx + e.weight + walkCost es' = qx + (e.weight + walkCost es') := by ring
        rw [← this]
        exact hyle
    · refine Or.inl ⟨x, ?_, ?_⟩
      · rw [a.mem_candidates_iff]
        exact ⟨by rw [Arena.nodeVals, inv.nodes_eq]; exact hx, hp⟩
      · refine F64.le_trans hqx (F64.fin_le_fin ?_)
        rw [walkCost_cons]
        linarith

/-- At selection time, the selected node's recorded cost is at most the cost
of every walk from the start to it. -/
theorem selected_le_walk {s t : Node} {NMAP : List (String × Node)}
    {EMAP : List (String × Edge)} (G : GraphHyps s t NMAP EMAP) {a : Arena}
    (inv : DijkInv s t NMAP EMAP a) {u : Node} (hu : a.find_lowest_cost_node = some u)
    {es : List Edge} (hwk : IsWalk (EMAP.map Prod.snd) es s u) :
    F64.le (a.get_cost u) (F64.fin (walkCost es)) := by
  have hs0 : F64.le (a.get_cost s) (F64.fin 0) := by
    unfold Arena.get_cost
    rw [inv.start_cost]
    exact F64.le_refl _
  rcases walk_cost_bound G inv es s u hwk G.hs 0 hs0 with ⟨z, hz, hzle⟩ | ⟨hup, _⟩
  · have hmin := Arena.find_lowest_min hu z hz
    have : F64.le (a.get_cost u) (F64.fin (0 + walkCost es)) := F64.le_trans hmin hzle
    rwa [zero_add] at this
  · have := ((a.mem_candidates_iff u).mp (Arena.find_lowest_mem hu)).2
    exact absurd hup this

/-- At selection time, a reachable selected node's recorded cost is exactly
the minimum walk cost from the start. -/
theorem selected_cost_minimal {s t : Node} {NMAP : List (String × Node)}
    {EMAP : List (String × Edge)} (G : GraphHyps s t NMAP EMAP) {a : Arena}
    (inv : DijkInv s t NMAP EMAP a) {u : Node} (hu : a.find_lowest_cost_node = some u)
    (hreach : ∃ es, IsWalk (EMAP.map Prod.snd) es s u) :
    ∃ q, a.get_cost u = F64.fin q ∧
      (∃ es, IsWalk (EMAP.map Prod.snd) es s u ∧ walkCost es = q) ∧
      ∀ es, IsWalk (EMAP.map Prod.snd) es s u → q ≤ walkCost es := by
  obtain ⟨es0raw, hes0raw⟩ := hreach
  obtain ⟨es0, hes0, hcheap⟩ := G.hb u es0raw hes0raw
  have h1 := selected_le_walk G inv hu hes0
  obtain ⟨q, hq, hqle⟩ := F64.le_fin_iff.mp h1
  have hqMAX : q < f64MAX := lt_of_le_of_lt hqle hcheap
  have hmin : ∀ es, IsWalk (EMAP.map Prod.snd) es s u → q ≤ walkCost es := by
    intro es hes
    have h2 := selected_le_walk G inv hu hes
    rw [hq] at h2
    exact h2
  refine ⟨q, hq, ?_, hmin⟩
  unfold Arena.get_cost at hq
  rcases hl : lookupKey u.id a.costs with _ | c
  · rw [hl] at hq
    injection hq with hq2
    rw [← hq2] at hqMAX
    exact absurd hqMAX (lt_irrefl _)
  · rw [hl] at hq
    cases c with
    | fin qc =>
      cases hq
      rcases inv.sound u.id q hl with ⟨es1, hes1, hcost1⟩ | hge
      · exact ⟨es1, hes1, hcost1⟩
      · exact absurd (lt_of_lt_of_le hqMAX hge) (lt_irrefl _)
    | inf => cases hq

/-! ## Helpers for the preservation proof -/

theorem Node.eta (n : Node) : (⟨n.id⟩ : Node) = n := rfl

theorem Node.ext_id {m n : Node} (h : m.id = n.id) : m = n := by
  cases m
  cases n
  simpa using h

/-- The state update performed by a successful relaxation. -/
def Arena.relaxUpdate (b : Arena) (vid uid : String) (c : F64) : Arena :=
  { b with costs := upsert vid c b.costs, parents := upsert vid uid b.parents }

theorem Arena.relaxOne_eq (b : Arena) (u v : Node) :
    b.relaxOne u v = match b.get_weight u v with
      | none => b
      | some w =>
        if F64.lt (F64.add (b.get_cost u) w) (b.get_cost v)
          then b.relaxUpdate v.id u.id (F64.add (b.get_cost u) w) else b := rfl

theorem Arena.get_cost_congr {a b : Arena} (h : a.costs = b.costs) (x : Node) :
    a.get_cost x = b.get_cost x := by
  unfold Arena.get_cost
  rw [h]

theorem Arena.get_weight_congr {a b : Arena} (h : a.edges = b.edges) (u v : Node) :
    a.get_weight u v = b.get_weight u v := by
  unfold Arena.get_weight Arena.edgeVals
  rw [h]

theorem Arena.relaxUpdate_costs (b : Arena) (vid uid : String) (c : F64) :
    (b.relaxUpdate vid uid c).costs = upsert vid c b.costs := rfl

theorem Arena.relaxUpdate_parents (b : Arena) (vid uid : String) (c : F64) :
    (b.relaxUpdate vid uid c).parents = upsert vid uid b.parents := rfl

theorem Arena.relaxUpdate_get_cost_ne (b : Arena) (vid uid : String) (c : F64)
    {x : Node} (h : x.id ≠ vid) : (b.relaxUpdate vid uid c).get_cost x = b.get_cost x := by
  unfold Arena.get_cost Arena.relaxUpdate
  rw [lookupKey_upsert_ne _ _ h]

theorem Arena.relaxUpdate_get_cost_self (b : Arena) (vid uid : String) (c : F64)
    {x : Node} (h : x.id = vid) : (b.relaxUpdate vid uid c).get_cost x = c := by
  unfold Arena.get_cost Arena.relaxUpdate
  rw [h, lookupKey_upsert_self]

theorem Arena.relaxOne_costsLe (b : Arena) (u v x : Node) :
    F64.le ((b.relaxOne u v).get_cost x) (b.get_cost x) := by
  rw [Arena.relaxOne_eq]
  rcases b.get_weight u v with _ | w
  · exact F64.le_refl _
  · simp only []
    split
    · rename_i hlt
      by_cases hx : x.id = v.id
      · rw [Arena.relaxUpdate_get_cost_self _ _ _ _ hx]
        have hxv : x = v := Node.ext_id hx
        subst hxv
        exact F64.le_of_lt hlt
      · rw [Arena.relaxUpdate_get_cost_ne _ _ _ _ hx]
        exact F64.le_refl _
    · exact F64.le_refl _

theorem get_weight_isSome_of_edge {a : Arena} {e : Edge} (he : e ∈ a.edgeVals)
    {u : Node} (hs : e.start_node = u) :
    ∃ w, a.get_weight u e.end_node = some w := by
  rcases hgw : a.get_weight u e.end_node with _ | w
  · exfalso
    unfold Arena.get_weight at hgw
    rcases hf : a.edgeVals.find? (fun e2 => e2.start_node == u && e2.end_node == e.end_node)
      with _ | e2
    · have := List.find?_eq_none.mp hf e he
      rw [Bool.and_eq_true, beq_iff_eq, beq_iff_eq] at this
      exact this ⟨hs, rfl⟩
    · rw [hf] at hgw
      simp at hgw
  · exact ⟨w, rfl⟩

theorem mem_find_neighbors_of_edge {a : Arena} {e : Edge} (he : e ∈ a.edgeVals)
    {u : Node} (hs : e.start_node = u) : e.end_node ∈ a.find_neighbors u := by
  unfold Arena.find_neighbors
  exact List.mem_map.mpr ⟨e, List.mem_filter.mpr ⟨he, by simpa using hs⟩, rfl⟩

theorem get_cost_nonneg_of_sound {s : Node} {EMAP : List (String × Edge)} {b : Arena}
    (hw : ∀ e ∈ EMAP.map Prod.snd, 0 ≤ e.weight)
    (hsound : ∀ id q, lookupKey id b.costs = some (F64.fin q) →
      (∃ es, IsWalk (EMAP.map Prod.snd) es s ⟨id⟩ ∧ walkCost es = q) ∨ f64MAX ≤ q)
    (x : Node) : F64.le (F64.fin 0) (b.get_cost x) := by
  unfold Arena.get_cost
  rcases hl : lookupKey x.id b.costs with _ | c
  · exact F64.fin_le_fin (le_of_lt f64MAX_pos)
  · cases c with
    | fin q =>
      rcases hsound x.id q hl with ⟨es, hes, hcost⟩ | hge
      · exact F64.fin_le_fin (hcost ▸ walkCost_nonneg hw hes)
      · exact F64.fin_le_fin (le_trans (le_of_lt f64MAX_pos) hge)
    | inf => trivial

theorem lookupKey_isSome_mem_keys {α : Type} {k : String} {m : List (String × α)}
    (h : (lookupKey k m).isSome) : k ∈ m.map Prod.fst := by
  induction m with
  | nil => simp [lookupKey] at h
  | cons p rest ih =>
    obtain ⟨k', v'⟩ := p
    by_cases hk : k' = k
    · simp [hk]
    · simp only [lookupKey, if_neg hk] at h
      simp only [List.map_cons, List.mem_cons]
      exact Or.inr (ih h)

theorem indexOf_append_of_mem {l l2 : List Node} {x : Node} (h : x ∈ l) :
    (l ++ l2).indexOf x = l.indexOf x := by
  induction l with
  | nil => simp at h
  | cons y ys ih =>
    by_cases hxy : y = x
    · subst hxy
      simp [List.indexOf_cons_self]
    · have hx : x ∈ ys := by
        rcases List.mem_cons.mp h with h2 | h2
        · exact absurd h2.symm hxy
        · exact h2
      rw [List.cons_append, List.indexOf_cons_ne _ (by simpa using hxy),
        List.indexOf_cons_ne _ (by simpa using hxy), ih hx]

theorem indexOf_append_self {l : List Node} {x : Node} (h : x ∉ l) :
    (l ++ [x]).indexOf x = l.length := by
  induction l with
  | nil => simp
  | cons y ys ih =>
    have hyx : y ≠ x := fun h2 => h (by simp [h2])
    have hx : x ∉ ys := fun h2 => h (by simp [h2])
    rw [List.cons_append, List.indexOf_cons_ne _ (by simpa using hyx), ih hx]
    rfl

theorem Arena.djikstraVisit_costs (a : Arena) (u : Node) :
    (a.djikstraVisit u).costs =
      ((a.find_neighbors u).foldl (fun acc nb => acc.relaxOne u nb) a).costs := rfl

theorem Arena.djikstraVisit_parents (a : Arena) (u : Node) :
    (a.djikstraVisit u).parents =
      ((a.find_neighbors u).foldl (fun acc nb => acc.relaxOne u nb) a).parents := rfl

theorem Arena.relaxOne_start (a : Arena) (u v : Node) :
    (a.relaxOne u v).start = a.start := by
  rw [Arena.relaxOne_eq]
  rcases a.get_weight u v with _ | w
  · rfl
  · simp only []
    split <;> rfl

theorem Arena.relaxOne_end (a : Arena) (u v : Node) :
    (a.relaxOne u v).end_ = a.end_ := by
  rw [Arena.relaxOne_eq]
  rcases a.get_weight u v with _ | w
  · rfl
  · simp only []
    split <;> rfl

theorem relaxFold_start (a : Arena) (u : Node) (l : List Node) :
    (l.foldl (fun acc nb => acc.relaxOne u nb) a).start = a.start := by
  induction l generalizing a with
  | nil => rfl
  | cons x xs ih => simp [List.foldl_cons, ih, Arena.relaxOne_start]

theorem relaxFold_end (a : Arena) (u : Node) (l : List Node) :
    (l.foldl (fun acc nb => acc.relaxOne u nb) a).end_ = a.end_ := by
  induction l generalizing a with
  | nil => rfl
  | cons x xs ih => simp [List.foldl_cons, ih, Arena.relaxOne_end]

theorem Arena.djikstraVisit_start (a : Arena) (u : Node) :
    (a.djikstraVisit u).start = a.start := by
  simp [Arena.djikstraVisit, relaxFold_start]

theorem Arena.djikstraVisit_end (a : Arena) (u : Node) :
    (a.djikstraVisit u).end_ = a.end_ := by
  simp [Arena.djikstraVisit, relaxFold_end]

/-- Mid-relaxation invariant: `a` is the selection-time state, `u` the
selected node, `b` a state reached while relaxing `u`'s neighbors. -/
structure MInv (s t : Node) (NMAP : List (String × Node)) (EMAP : List (String × Edge))
    (a : Arena) (u : Node) (b : Arena) : Prop where
  nodes_eq : b.nodes = a.nodes
  edges_eq : b.edges = a.edges
  start_eq : b.start = a.start
  end_eq : b.end_ = a.end_
  processed_eq : b.processed = a.processed
  parents_nodup : (b.parents.map Prod.fst).Nodup
  start_cost : lookupKey s.id b.costs = some (F64.fin 0)
  start_noparent : lookupKey s.id b.parents = none
  sound : ∀ id q, lookupKey id b.costs = some (F64.fin q) →
    (∃ es, IsWalk (EMAP.map Prod.snd) es s ⟨id⟩ ∧ walkCost es = q) ∨ f64MAX ≤ q
  hasParent : ∀ id q, lookupKey id b.costs = some (F64.fin q) →
    id = s.id ∨ (lookupKey id b.parents).isSome
  parentEdge : ∀ vid uid, lookupKey vid b.parents = some uid →
    ∃ e ∈ EMAP.map Prod.snd, e.start_node.id = uid ∧ e.end_node.id = vid ∧
      ∃ qv, lookupKey vid b.costs = some (F64.fin qv) ∧
        F64.le (F64.add (b.get_cost ⟨uid⟩) e.weight) (F64.fin qv)
  parentP : ∀ vid uid, lookupKey vid b.parents = some uid →
    ((⟨uid⟩ : Node) ∈ a.processed ∧ ((⟨vid⟩ : Node) ∈ a.processed →
      a.processed.indexOf (⟨uid⟩ : Node) < a.processed.indexOf (⟨vid⟩ : Node))) ∨
    (uid = u.id ∧ (⟨vid⟩ : Node) ∉ a.processed ∧ vid ≠ u.id)
  costsLe : ∀ v : Node, F64.le (b.get_cost v) (a.get_cost v)
  procStable : ∀ p ∈ a.processed, b.get_cost p = a.get_cost p
  uStable : b.get_cost u = a.get_cost u
  newLower : ∀ v : Node, b.get_cost v = a.get_cost v ∨ F64.le (a.get_cost u) (b.get_cost v)

theorem MInv_init {s t : Node} {NMAP : List (String × Node)} {EMAP : List (String × Edge)}
    {a : Arena} (inv : DijkInv s t NMAP EMAP a) (u : Node) : MInv s t NMAP EMAP a u a := by
  refine ⟨rfl, rfl, rfl, rfl, rfl, ?_, inv.start_cost, inv.start_noparent, inv.sound,
    inv.hasParent, inv.parentEdge, ?_, ?_, ?_, rfl, ?_⟩
  · exact inv.parents_nodup
  · intro vid uid hp
    exact Or.inl ⟨inv.parentProcessed vid uid hp, inv.parentOrder vid uid hp⟩
  · intro v
    exact F64.le_refl _
  · intro p _
    rfl
  · intro v
    exact Or.inl rfl

theorem relaxOne_MInv {s t : Node} {NMAP : List (String × Node)} {EMAP : List (String × Edge)}
    (G : GraphHyps s t NMAP EMAP) {a : Arena}
    (inv : DijkInv s t NMAP EMAP a) {u : Node} (hu : a.find_lowest_cost_node = some u)
    {b : Arena} (m : MInv s t NMAP EMAP a u b) (v : Node) :
    MInv s t NMAP EMAP a u (b.relaxOne u v) ∧
    ∀ w, b.get_weight u v = some w →
      F64.le ((b.relaxOne u v).get_cost v) (F64.add ((b.relaxOne u v).get_cost u) w) := by
  have hu_cand : u ∈ a.candidates := Arena.find_lowest_mem hu
  have hu_mem : u ∈ NMAP.map Prod.snd := by
    have h := ((a.mem_candidates_iff u).mp hu_cand).1
    rw [Arena.nodeVals, inv.nodes_eq] at h
    exact h
  have hu_np : u ∉ a.processed := ((a.mem_candidates_iff u).mp hu_cand).2
  have hproc_le_u : ∀ p ∈ a.processed, F64.le (a.get_cost p) (a.get_cost u) :=
    fun p hp => inv.procMin p hp u hu_mem hu_np
  have hnonneg_b : ∀ x : Node, F64.le (F64.fin 0) (b.get_cost x) :=
    get_cost_nonneg_of_sound G.hw m.sound
  rcases hgw : b.get_weight u v with _ | w
  · have hred : b.relaxOne u v = b := by rw [Arena.relaxOne_eq, hgw]
    rw [hred]
    exact ⟨m, fun w hw2 => Option.noConfusion hw2⟩
  · have hred : b.relaxOne u v = if F64.lt (F64.add (b.get_cost u) w) (b.get_cost v)
        then b.relaxUpdate v.id u.id (F64.add (b.get_cost u) w) else b := by
      rw [Arena.relaxOne_eq, hgw]
    obtain ⟨e', he'mem_b, he's, he'e, he'w⟩ := Arena.get_weight_some_mem hgw
    have he'mem : e' ∈ EMAP.map Prod.snd := by
      unfold Arena.edgeVals at he'mem_b
      rw [m.edges_eq, inv.edges_eq] at he'mem_b
      exact he'mem_b
    have hw0 : 0 ≤ w := he'w ▸ G.hw e' he'mem
    by_cases hlt : F64.lt (F64.add (b.get_cost u) w) (b.get_cost v)
    · have hred2 : b.relaxOne u v = b.relaxUpdate v.id u.id (F64.add (b.get_cost u) w) := by
        rw [hred, if_pos hlt]
      rw [hred2]
      have hne_u : v.id ≠ u.id := by
        intro h
        have hvu : v = u := Node.ext_id h
        subst hvu
        exact F64.not_lt_of_le (F64.le_add_of_nonneg hw0) hlt
      have hnewfin : ∃ qn, F64.add (b.get_cost u) w = F64.fin qn := by
        rcases hadd : F64.add (b.get_cost u) w with qn | _
        · exact ⟨qn, rfl⟩
        · rw [hadd] at hlt
          cases hlt
      obtain ⟨qn, hqn⟩ := hnewfin
      have hqn_nonneg : 0 ≤ qn := by
        have h0 := hnonneg_b u
        rcases hcu : b.get_cost u with qu | _
        · rw [hcu] at hqn h0
          rw [F64.add_fin] at hqn
          injection hqn with h2
          simp only [F64.le] at h0
          rw [← h2]
          linarith
        · rw [hcu] at hqn
          simp [F64.add] at hqn
      have hne_s : v.id ≠ s.id := by
        intro h
        have hcv : b.get_cost v = F64.fin 0 := by
          unfold Arena.get_cost
          rw [h, m.start_cost]
        rw [hcv, hqn] at hlt
        simp only [F64.lt] at hlt
        linarith
      have hv_np : v ∉ a.processed := by
        intro hvp
        have h1 : b.get_cost v = a.get_cost v := m.procStable v hvp
        have h2 : F64.le (a.get_cost v) (a.get_cost u) := hproc_le_u v hvp
        have h3 : F64.le (a.get_cost u) (F64.add (a.get_cost u) w) := F64.le_add_of_nonneg hw0
        have h5 : F64.le (b.get_cost v) (F64.add (b.get_cost u) w) := by
          rw [h1, m.uStable]
          exact F64.le_trans h2 h3
        exact F64.not_lt_of_le h5 hlt
      have hs_ne_v : s.id ≠ v.id := fun h => hne_s h.symm
      have hu_ne_v : u.id ≠ v.id := fun h => hne_u h.symm
      constructor
      · refine ⟨m.nodes_eq, m.edges_eq, m.start_eq, m.end_eq, m.processed_eq, ?_, ?_, ?_,
          ?_, ?_, ?_, ?_, ?_, ?_, ?_, ?_⟩
        · exact upsert_keys_nodup _ _ _ m.parents_nodup
        · rw [Arena.relaxUpdate_costs, lookupKey_upsert_ne _ _ hs_ne_v]
          exact m.start_cost
        · rw [Arena.relaxUpdate_parents, lookupKey_upsert_ne _ _ hs_ne_v]
          exact m.start_noparent
        · -- sound
          intro id q hq
          rw [Arena.relaxUpdate_costs] at hq
          by_cases hid : id = v.id
          · rw [hid] at hq ⊢
            rw [lookupKey_upsert_self] at hq
            injection hq with hq2
            have hstored : lookupKey u.id b.costs = some (F64.fin (q - w)) ∨
                (lookupKey u.id b.costs = none ∧ q = f64MAX + w) ∨
                (∃ qu, lookupKey u.id b.costs = some (F64.fin qu) ∧ q = qu + w) := by
              unfold Arena.get_cost at hq2
              rcases hlu : lookupKey u.id b.costs with _ | c
              · rw [hlu] at hq2
                rw [F64.add_fin] at hq2
                injection hq2 with h3
                exact Or.inr (Or.inl ⟨rfl, h3.symm⟩)
              · rw [hlu] at hq2
                cases c with
                | fin qu =>
                  rw [F64.add_fin] at hq2
                  injection hq2 with h3
                  exact Or.inr (Or.inr ⟨qu, rfl, h3.symm⟩)
                | inf => simp [F64.add] at hq2
            rcases hstored with h3 | ⟨hlu, hq3⟩ | ⟨qu, hlu, hq3⟩
            · -- impossible shape kept for exhaustiveness; treat as the stored case
              rcases m.sound u.id (q - w) h3 with ⟨es, hes, hcost⟩ | hge
              · refine Or.inl ⟨es ++ [e'], ?_, ?_⟩
                · rw [Node.eta, ← he'e]
                  exact hes.append_edge he'mem he's
                · rw [walkCost_append, hcost, walkCost_cons, walkCost_nil, he'w]
                  ring
              · refine Or.inr ?_
                linarith
            · refine Or.inr ?_
              linarith
            · rcases m.sound u.id qu hlu with ⟨es, hes, hcost⟩ | hge
              · refine Or.inl ⟨es ++ [e'], ?_, ?_⟩
                · rw [Node.eta, ← he'e]
                  exact hes.append_edge he'mem he's
                · rw [walkCost_append, hcost, walkCost_cons, walkCost_nil, he'w, hq3]
                  ring
              · refine Or.inr ?_
                linarith
          · rw [lookupKey_upsert_ne _ _ hid] at hq
            exact m.sound id q hq
        · -- hasParent
          intro id q hq
          rw [Arena.relaxUpdate_costs] at hq
          by_cases hid : id = v.id
          · refine Or.inr ?_
            rw [Arena.relaxUpdate_parents, hid, lookupKey_upsert_self]
            rfl
          · rw [lookupKey_upsert_ne _ _ hid] at hq
            rcases m.hasParent id q hq with h | h
            · exact Or.inl h
            · refine Or.inr ?_
              rw [Arena.relaxUpdate_parents, lookupKey_upsert_ne _ _ hid]
              exact h
        · -- parentEdge
          intro vid uid hp
          rw [Arena.relaxUpdate_parents] at hp
          by_cases hvid : vid = v.id
          · rw [hvid] at hp ⊢
            rw [lookupKey_upsert_self] at hp
            injection hp with hp2
            subst hp2
            refine ⟨e', he'mem, congrArg Node.id he's, congrArg Node.id he'e, qn, ?_, ?_⟩
            · rw [Arena.relaxUpdate_costs, lookupKey_upsert_self, hqn]
            · have hgcu : (b.relaxUpdate v.id u.id (F64.add (b.get_cost u) w)).get_cost
                  (⟨u.id⟩ : Node) = b.get_cost u :=
                Arena.relaxUpdate_get_cost_ne _ _ _ _ hu_ne_v
              rw [hgcu, he'w, hqn]
              exact F64.le_refl _
          · rw [lookupKey_upsert_ne _ _ hvid] at hp
            obtain ⟨e, hemem, hes, hee, qv, hqv, hle⟩ := m.parentEdge vid uid hp
            refine ⟨e, hemem, hes, hee, qv, ?_, ?_⟩
            · rw [Arena.relaxUpdate_costs, lookupKey_upsert_ne _ _ hvid]
              exact hqv
            · have hcle : F64.le ((b.relaxUpdate v.id u.id
                  (F64.add (b.get_cost u) w)).get_cost (⟨uid⟩ : Node))
                  (b.get_cost (⟨uid⟩ : Node)) := by
                by_cases huid : (⟨uid⟩ : Node).id = v.id
                · rw [Arena.relaxUpdate_get_cost_self _ _ _ _ huid]
                  have hv2 : (⟨uid⟩ : Node) = v := Node.ext_id (by simpa using huid)
                  rw [hv2]
                  exact F64.le_of_lt hlt
                · rw [Arena.relaxUpdate_get_cost_ne _ _ _ _ huid]
                  exact F64.le_refl _
              exact F64.le_trans (F64.add_le_add_right e.weight hcle) hle
        · -- parentP
          intro vid uid hp
          rw [Arena.relaxUpdate_parents] at hp
          by_cases hvid : vid = v.id
          · rw [hvid] at hp ⊢
            rw [lookupKey_upsert_self] at hp
            injection hp with hp2
            subst hp2
            refine Or.inr ⟨rfl, ?_, fun h => hne_u h⟩
            rw [Node.eta]
            exact hv_np
          · rw [lookupKey_upsert_ne _ _ hvid] at hp
            exact m.parentP vid uid hp
        · -- costsLe
          intro x
          by_cases hx : x.id = v.id
          · rw [Arena.relaxUpdate_get_cost_self _ _ _ _ hx]
            have hxv : x = v := Node.ext_id hx
            subst hxv
            exact F64.le_trans (F64.le_of_lt hlt) (m.costsLe x)
          · rw [Arena.relaxUpdate_get_cost_ne _ _ _ _ hx]
            exact m.costsLe x
        · -- procStable
          intro p hp
          have hpne : p.id ≠ v.id := by
            intro h
            exact hv_np (Node.ext_id h ▸ hp)
          rw [Arena.relaxUpdate_get_cost_ne _ _ _ _ hpne]
          exact m.procStable p hp
        · -- uStable
          rw [Arena.relaxUpdate_get_cost_ne _ _ _ _ hu_ne_v]
          exact m.uStable
        · -- newLower
          intro x
          by_cases hx : x.id = v.id
          · refine Or.inr ?_
            rw [Arena.relaxUpdate_get_cost_self _ _ _ _ hx]
            rw [show F64.add (b.get_cost u) w = F64.add (a.get_cost u) w by rw [m.uStable]]
            exact F64.le_add_of_nonneg hw0
          · rw [Arena.relaxUpdate_get_cost_ne _ _ _ _ hx]
            exact m.newLower x
      · -- the relaxed bound for v
        intro w2 hw2
        injection hw2 with h
        subst h
        rw [Arena.relaxUpdate_get_cost_self _ _ _ _ rfl,
          Arena.relaxUpdate_get_cost_ne _ _ _ _ hu_ne_v]
        exact F64.le_refl _
    · have hred2 : b.relaxOne u v = b := by rw [hred, if_neg hlt]
      rw [hred2]
      refine ⟨m, ?_⟩
      intro w2 hw2
      injection hw2 with h
      subst h
      exact F64.le_of_not_lt hlt

theorem relaxFold_costsLe (u : Node) :
    ∀ (l : List Node) (b : Arena) (x : Node),
      F64.le ((l.foldl (fun acc nb => acc.relaxOne u nb) b).get_cost x) (b.get_cost x) := by
  intro l
  induction l with
  | nil =>
    intro b x
    exact F64.le_refl _
  | cons v0 l' ih =>
    intro b x
    rw [List.foldl_cons]
    exact F64.le_trans (ih _ x) (Arena.relaxOne_costsLe b u v0 x)

theorem relaxFold_MInv {s t : Node} {NMAP : List (String × Node)}
    {EMAP : List (String × Edge)} (G : GraphHyps s t NMAP EMAP) {a : Arena}
    (inv : DijkInv s t NMAP EMAP a) {u : Node} (hu : a.find_lowest_cost_node = some u) :
    ∀ (l : List Node) (b : Arena), MInv s t NMAP EMAP a u b →
      MInv s t NMAP EMAP a u (l.foldl (fun acc nb => acc.relaxOne u nb) b) ∧
      ∀ v ∈ l, ∀ w, b.get_weight u v = some w →
        F64.le ((l.foldl (fun acc nb => acc.relaxOne u nb) b).get_cost v)
          (F64.add ((l.foldl (fun acc nb => acc.relaxOne u nb) b).get_cost u) w) := by
  intro l
  induction l with
  | nil =>
    intro b hb
    exact ⟨hb, by simp⟩
  | cons v0 l' ih =>
    intro b hb
    obtain ⟨m1, hbound1⟩ := relaxOne_MInv G inv hu hb v0
    obtain ⟨mF, hboundF⟩ := ih (b.relaxOne u v0) m1
    rw [List.foldl_cons]
    refine ⟨mF, ?_⟩
    intro v hv w hw
    rcases List.mem_cons.mp hv with rfl | hv'
    · have h1 := hbound1 w hw
      have h2 : F64.le ((l'.foldl (fun acc nb => acc.relaxOne u nb)
          (b.relaxOne u v)).get_cost v) ((b.relaxOne u v).get_cost v) :=
        relaxFold_costsLe u l' _ v
      have h3 : (l'.foldl (fun acc nb => acc.relaxOne u nb) (b.relaxOne u v)).get_cost u =
          (b.relaxOne u v).get_cost u := by
        rw [mF.uStable, m1.uStable]
      rw [h3]
      exact F64.le_trans h2 h1
    · have hw' : (b.relaxOne u v0).get_weight u v = some w := by
        rw [Arena.get_weight_congr (Arena.relaxOne_edges b u v0)]
        exact hw
      exact hboundF v hv' w hw'

theorem visit_DijkInv {s t : Node} {NMAP : List (String × Node)}
    {EMAP : List (String × Edge)} (G : GraphHyps s t NMAP EMAP) {a : Arena}
    (inv : DijkInv s t NMAP EMAP a) {u : Node} (hu : a.find_lowest_cost_node = some u) :
    DijkInv s t NMAP EMAP (a.djikstraVisit u) := by
  obtain ⟨mF, hboundF⟩ := relaxFold_MInv G inv hu (a.find_neighbors u) a (MInv_init inv u)
  have hcosts : (a.djikstraVisit u).costs =
      ((a.find_neighbors u).foldl (fun acc nb => acc.relaxOne u nb) a).costs := rfl
  have hparents : (a.djikstraVisit u).parents =
      ((a.find_neighbors u).foldl (fun acc nb => acc.relaxOne u nb) a).parents := rfl
  have hget : ∀ x : Node, (a.djikstraVisit u).get_cost x =
      ((a.find_neighbors u).foldl (fun acc nb => acc.relaxOne u nb) a).get_cost x :=
    fun x => Arena.get_cost_congr hcosts x
  have hproc : (a.djikstraVisit u).processed = a.processed ++ [u] :=
    Arena.djikstraVisit_processed a u
  have hu_cand : u ∈ a.candidates := Arena.find_lowest_mem hu
  have hu_mem : u ∈ NMAP.map Prod.snd := by
    have h := ((a.mem_candidates_iff u).mp hu_cand).1
    rw [Arena.nodeVals, inv.nodes_eq] at h
    exact h
  have hu_np : u ∉ a.processed := ((a.mem_candidates_iff u).mp hu_cand).2
  have hu_min : ∀ v ∈ NMAP.map Prod.snd, v ∉ a.processed →
      F64.le (a.get_cost u) (a.get_cost v) := by
    intro v hv hnv
    refine Arena.find_lowest_min hu v ((a.mem_candidates_iff v).mpr ⟨?_, hnv⟩)
    rw [Arena.nodeVals, inv.nodes_eq]
    exact hv
  refine ⟨?_, ?_, ?_, ?_, ?_, ?_, ?_, ?_, ?_, ?_, ?_, ?_, ?_, ?_, ?_⟩
  · rw [Arena.djikstraVisit_nodes]
    exact inv.nodes_eq
  · rw [Arena.djikstraVisit_edges]
    exact inv.edges_eq
  · rw [Arena.djikstraVisit_start]
    exact inv.start_eq
  · rw [Arena.djikstraVisit_end]
    exact inv.end_eq
  · rw [hparents]
    exact mF.parents_nodup
  · rw [hcosts]
    exact mF.start_cost
  · rw [hparents]
    exact mF.start_noparent
  · intro id q hq
    rw [hcosts] at hq
    exact mF.sound id q hq
  · intro id q hq
    rw [hcosts] at hq
    rcases mF.hasParent id q hq with h | h
    · exact Or.inl h
    · refine Or.inr ?_
      rw [hparents]
      exact h
  · intro vid uid hp
    rw [hparents] at hp
    obtain ⟨e, he, hes, hee, qv, hqv, hle⟩ := mF.parentEdge vid uid hp
    refine ⟨e, he, hes, hee, qv, ?_, ?_⟩
    · rw [hcosts]
      exact hqv
    · rw [hget]
      exact hle
  · intro vid uid hp
    rw [hparents] at hp
    rw [hproc]
    rcases mF.parentP vid uid hp with ⟨h1, _⟩ | ⟨h1, _, _⟩
    · exact List.mem_append.mpr (Or.inl h1)
    · rw [h1, Node.eta]
      exact List.mem_append.mpr (Or.inr (by simp))
  · intro vid uid hp hv
    rw [hparents] at hp
    rw [hproc] at hv ⊢
    rcases mF.parentP vid uid hp with ⟨hup, hord⟩ | ⟨huid, hvnp, hvne⟩
    · rcases List.mem_append.mp hv with hv1 | hv2
      · rw [indexOf_append_of_mem hup, indexOf_append_of_mem hv1]
        exact hord hv1
      · simp only [List.mem_singleton] at hv2
        rw [hv2, indexOf_append_of_mem hup, indexOf_append_self hu_np]
        exact List.indexOf_lt_length.mpr hup
    · rcases List.mem_append.mp hv with hv1 | hv2
      · exact absurd hv1 hvnp
      · simp only [List.mem_singleton] at hv2
        exact absurd (congrArg Node.id hv2) hvne
  · intro p hp c hc hcn
    rw [hproc] at hp hcn
    have hcp : c ∉ a.processed := fun h => hcn (List.mem_append.mpr (Or.inl h))
    rw [hget p, hget c]
    rcases mF.newLower c with hceq | hcge
    · rcases List.mem_append.mp hp with hp1 | hp2
      · rw [mF.procStable p hp1, hceq]
        exact inv.procMin p hp1 c hc hcp
      · simp only [List.mem_singleton] at hp2
        subst hp2
        rw [mF.uStable, hceq]
        exact hu_min c hc hcp
    · rcases List.mem_append.mp hp with hp1 | hp2
      · rw [mF.procStable p hp1]
        exact F64.le_trans (inv.procMin p hp1 u hu_mem hu_np) hcge
      · simp only [List.mem_singleton] at hp2
        subst hp2
        rw [mF.uStable]
        exact hcge
  · intro p hp e he hest
    rw [hproc] at hp
    rw [hget e.end_node, hget p]
    rcases List.mem_append.mp hp with hp1 | hp2
    · have h2 : F64.add (((a.find_neighbors u).foldl (fun acc nb => acc.relaxOne u nb)
          a).get_cost p) e.weight = F64.add (a.get_cost p) e.weight := by
        rw [mF.procStable p hp1]
      rw [h2]
      exact F64.le_trans (mF.costsLe e.end_node) (inv.procRelaxed p hp1 e he hest)
    · simp only [List.mem_singleton] at hp2
      subst hp2
      have hea : e ∈ a.edgeVals := by
        unfold Arena.edgeVals
        rw [inv.edges_eq]
        exact he
      have hee_nb : e.end_node ∈ a.find_neighbors p := mem_find_neighbors_of_edge hea hest
      obtain ⟨w', hw'⟩ := get_weight_isSome_of_edge hea hest
      have hb1 := hboundF e.end_node hee_nb w' hw'
      obtain ⟨e2, he2mem_a, he2s, he2e, he2w⟩ := Arena.get_weight_some_mem hw'
      have he2mem : e2 ∈ EMAP.map Prod.snd := by
        unfold Arena.edgeVals at he2mem_a
        rw [inv.edges_eq] at he2mem_a
        exact he2mem_a
      have hwe : w' = e.weight := by
        rw [← he2w]
        exact G.hpar e2 he2mem e he (he2s.trans hest.symm) he2e
      rw [← hwe]
      exact hb1
  · intro p hp es hes
    rw [hget p]
    rw [hproc] at hp
    rcases List.mem_append.mp hp with hp1 | hp2
    · rw [mF.procStable p hp1]
      exact inv.procBound p hp1 es hes
    · simp only [List.mem_singleton] at hp2
      subst hp2
      have h1 := selected_le_walk G inv hu hes
      rw [mF.uStable]
      exact F64.le_fin_iff.mp h1

/-- The invariant holds for a freshly constructed engine. -/
theorem DijkInv_init (s t : Node) (ns : List Node) (es : List Edge) (hne : s.id ≠ t.id) :
    DijkInv s t (((Arena.new s t).add_nodes ns).add_edges es).nodes
      (((Arena.new s t).add_nodes ns).add_edges es).edges
      (((Arena.new s t).add_nodes ns).add_edges es) := by
  have hcosts : (((Arena.new s t).add_nodes ns).add_edges es).costs =
      upsert t.id F64.inf (upsert s.id (F64.fin 0) []) := by
    rw [Arena.add_edges_costs, Arena.add_nodes_costs]
    rfl
  have hparents : (((Arena.new s t).add_nodes ns).add_edges es).parents = [] := by
    rw [Arena.add_edges_parents, Arena.add_nodes_parents]
    rfl
  have hproc : (((Arena.new s t).add_nodes ns).add_edges es).processed = [] := by
    rw [Arena.add_edges_processed, Arena.add_nodes_processed]
    rfl
  refine ⟨rfl, rfl, ?_, ?_, ?_, ?_, ?_, ?_, ?_, ?_, ?_, ?_, ?_, ?_, ?_⟩
  · rw [Arena.add_edges_start, Arena.add_nodes_start]
    rfl
  · rw [Arena.add_edges_end, Arena.add_nodes_end]
    rfl
  · rw [hparents]
    simp
  · rw [hcosts, lookupKey_upsert_ne _ _ hne]
    exact lookupKey_upsert_self _ _ _
  · rw [hparents]
    rfl
  · intro id q hq
    rw [hcosts] at hq
    by_cases hid : id = t.id
    · rw [hid, lookupKey_upsert_self] at hq
      cases hq
    · rw [lookupKey_upsert_ne _ _ hid] at hq
      by_cases his : id = s.id
      · rw [his, lookupKey_upsert_self] at hq
        injection hq with hq2
        injection hq2 with hq3
        refine Or.inl ⟨[], ?_, ?_⟩
        · rw [his]
          exact IsWalk.nil s
        · rw [walkCost_nil, ← hq3]
      · rw [lookupKey_upsert_ne _ _ his] at hq
        cases hq
  · intro id q hq
    rw [hcosts] at hq
    by_cases hid : id = t.id
    · rw [hid, lookupKey_upsert_self] at hq
      cases hq
    · rw [lookupKey_upsert_ne _ _ hid] at hq
      by_cases his : id = s.id
      · exact Or.inl his
      · rw [lookupKey_upsert_ne _ _ his] at hq
        cases hq
  · intro vid uid hp
    rw [hparents] at hp
    cases hp
  · intro vid uid hp
    rw [hparents] at hp
    cases hp
  · intro vid uid hp
    rw [hparents] at hp
    cases hp
  · intro p hp
    rw [hproc] at hp
    cases hp
  · intro p hp
    rw [hproc] at hp
    cases hp
  · intro p hp
    rw [hproc] at hp
    cases hp

/-- The invariant holds at every state the loop passes through. -/
theorem DijkInv_reaches {s t : Node} {NMAP : List (String × Node)}
    {EMAP : List (String × Edge)} (G : GraphHyps s t NMAP EMAP) {A0 a : Arena}
    (h0 : DijkInv s t NMAP EMAP A0) (hr : LoopReaches A0 a) :
    DijkInv s t NMAP EMAP a :=
  loopReaches_invariant (fun _ _ hu hb => visit_DijkInv G hb hu) hr h0

/-- The selected node's cost does not change while it is being visited. -/
theorem visit_get_cost_selected {s t : Node} {NMAP : List (String × Node)}
    {EMAP : List (String × Edge)} (G : GraphHyps s t NMAP EMAP) {a : Arena}
    (inv : DijkInv s t NMAP EMAP a) {u : Node} (hu : a.find_lowest_cost_node = some u) :
    (a.djikstraVisit u).get_cost u = a.get_cost u := by
  obtain ⟨mF, _⟩ := relaxFold_MInv G inv hu (a.find_neighbors u) a (MInv_init inv u)
  have hget : (a.djikstraVisit u).get_cost u =
      ((a.find_neighbors u).foldl (fun acc nb => acc.relaxOne u nb) a).get_cost u :=
    Arena.get_cost_congr rfl u
  rw [hget, mF.uStable]

/-- C1 (amended): in a well-formed engine (distinct start/end, non-negative
weights, registered edge endpoints and start node, weight-consistent
parallel edges, reachable nodes cheaper than the sentinel), whenever the
frontier selects a node reachable from the start, the cost recorded for it
— unchanged while it is visited and pushed onto the processed set — equals
the true minimum cost over all walks from the start node to it. -/
theorem dijkstra_processed_cost_is_minimum (s t : Node) (ns : List Node) (es : List Edge)
    (G : GraphHyps s t (((Arena.new s t).add_nodes ns).add_edges es).nodes
      (((Arena.new s t).add_nodes ns).add_edges es).edges) :
    ∀ (a : Arena) (u : Node),
      LoopReaches (((Arena.new s t).add_nodes ns).add_edges es) a →
      a.find_lowest_cost_node = some u →
      (∃ w0, IsWalk ((((Arena.new s t).add_nodes ns).add_edges es).edges.map Prod.snd)
        w0 s u) →
      ∃ q, a.get_cost u = F64.fin q ∧
        (a.djikstraVisit u).get_cost u = F64.fin q ∧
        (∃ w0, IsWalk ((((Arena.new s t).add_nodes ns).add_edges es).edges.map Prod.snd)
          w0 s u ∧ walkCost w0 = q) ∧
        (∀ w0, IsWalk ((((Arena.new s t).add_nodes ns).add_edges es).edges.map Prod.snd)
          w0 s u → q ≤ walkCost w0) := by
  intro a u hr hu hreach
  have hinv := DijkInv_reaches G (DijkInv_init s t ns es G.hne) hr
  have hreach2 : ∃ w0, IsWalk ((((Arena.new s t).add_nodes ns).add_edges es).edges.map
      Prod.snd) w0 s u := hreach
  obtain ⟨q, hq, hwit, hmin⟩ := selected_cost_minimal G hinv hu hreach2
  refine ⟨q, hq, ?_, hwit, hmin⟩
  rw [visit_get_cost_selected G hinv hu]
  exact hq

theorem arenaLine_hyps : GraphHyps nodeS nodeT arenaLine.nodes arenaLine.edges := by
  have hEV : arenaLine.edges.map Prod.snd = [edgeST5] := by with_unfolding_all rfl
  have hNV : arenaLine.nodes.map Prod.snd = [nodeS, nodeT] := by with_unfolding_all rfl
  refine ⟨by decide, ?_, ?_, ?_, ?_, ?_⟩
  · rw [hEV]
    intro e he
    simp only [List.mem_singleton] at he
    subst he
    norm_num [edgeST5]
  · rw [hEV, hNV]
    intro e he
    simp only [List.mem_singleton] at he
    subst he
    exact ⟨by decide, by decide⟩
  · rw [hNV]
    decide
  · rw [hEV]
    intro e he e2 he2 _ _
    simp only [List.mem_singleton] at he he2
    rw [he, he2]
  · rw [hEV]
    intro v es0 hwk
    rcases hwk.last_cases with ⟨_, heq⟩ | ⟨e, hemem, hend⟩
    · refine ⟨[], ?_, ?_⟩
      · rw [← heq]
        exact IsWalk.nil nodeS
      · rw [walkCost_nil]
        exact f64MAX_pos
    · simp only [List.mem_singleton] at hemem
      subst hemem
      refine ⟨[edgeST5], ?_, ?_⟩
      · rw [← hend]
        exact IsWalk.cons (by simp) rfl (IsWalk.nil _)
      · norm_num [walkCost, edgeST5, f64MAX]

theorem dijkstra_processed_cost_is_minimum_witness :
    ∃ q, arenaLine.get_cost nodeS = F64.fin q ∧
      (arenaLine.djikstraVisit nodeS).get_cost nodeS = F64.fin q ∧
      (∃ w0, IsWalk (arenaLine.edges.map Prod.snd) w0 nodeS nodeS ∧ walkCost w0 = q) ∧
      (∀ w0, IsWalk (arenaLine.edges.map Prod.snd) w0 nodeS nodeS → q ≤ walkCost w0) :=
  dijkstra_processed_cost_is_minimum nodeS nodeT [nodeS, nodeT] [edgeST5] arenaLine_hyps
    arenaLine nodeS Relation.ReflTransGen.refl (by with_unfolding_all rfl)
    ⟨[], IsWalk.nil _⟩

/-! ## The predecessor chain and path reconstruction (C8) -/

/-- `ClimbsL P wid vid ids`: starting at `vid`, repeatedly following the
predecessor map `P` reaches `wid`; `ids` is the list of keys looked up on
the way (`vid` first, `wid` excluded). -/
inductive ClimbsL (P : List (String × String)) (wid : String) : String → List String → Prop
  | refl : ClimbsL P wid wid []
  | step {vid uid : String} {ids : List String} : lookupKey vid P = some uid →
      ClimbsL P wid uid ids → ClimbsL P wid vid (vid :: ids)

/-- Every processed node with a stored cost below the sentinel has a
predecessor chain reaching the start node, visiting pairwise-distinct keys
of the predecessor map, in strictly decreasing processed order. -/
theorem chain_exists {s t : Node} {NMAP : List (String × Node)}
    {EMAP : List (String × Edge)} (G : GraphHyps s t NMAP EMAP) {af : Arena}
    (inv : DijkInv s t NMAP EMAP af) :
    ∀ (n : Nat) (id : String) (q : ℚ), (⟨id⟩ : Node) ∈ af.processed →
      af.processed.indexOf (⟨id⟩ : Node) = n →
      lookupKey id af.costs = some (F64.fin q) → q < f64MAX →
      ∃ ids, ClimbsL af.parents s.id id ids ∧ ids.Nodup ∧
        (∀ x ∈ ids, x ∈ af.parents.map Prod.fst) ∧
        (∀ x ∈ ids, af.processed.indexOf (⟨x⟩ : Node) ≤ n) := by
  intro n
  induction n using Nat.strong_induction_on with
  | _ n ih =>
    intro id q hpmem hidx hq hqMAX
    by_cases hid : id = s.id
    · subst hid
      exact ⟨[], ClimbsL.refl, by simp, by simp, by simp⟩
    · rcases inv.hasParent id q hq with h | h
      · exact absurd h hid
      · rcases hup : lookupKey id af.parents with _ | uid
        · rw [hup] at h
          simp at h
        · obtain ⟨e, hemem, hes, hee, qv, hqv, hle⟩ := inv.parentEdge id uid hup
          have hqq : q = qv := by
            rw [hq] at hqv
            injection hqv with h2
            injection h2
          subst hqq
          have hw0 : 0 ≤ e.weight := G.hw e hemem
          have hustored : ∃ qu, lookupKey uid af.costs = some (F64.fin qu) ∧ qu < f64MAX := by
            unfold Arena.get_cost at hle
            rcases hlu : lookupKey uid af.costs with _ | c
            · rw [hlu] at hle
              rw [F64.add_fin] at hle
              simp only [F64.le] at hle
              exfalso
              linarith
            · rw [hlu] at hle
              cases c with
              | fin qu =>
                rw [F64.add_fin] at hle
                simp only [F64.le] at hle
                exact ⟨qu, rfl, by linarith⟩
              | inf => simp [F64.add, F64.le] at hle
          obtain ⟨qu, hlu, hquMAX⟩ := hustored
          have hupmem : (⟨uid⟩ : Node) ∈ af.processed := inv.parentProcessed id uid hup
          have hord : af.processed.indexOf (⟨uid⟩ : Node) <
              af.processed.indexOf (⟨id⟩ : Node) := inv.parentOrder id uid hup hpmem
          rw [hidx] at hord
          obtain ⟨ids', hcl, hnd, hkeys, hbound⟩ := ih _ hord uid qu hupmem rfl hlu hquMAX
          refine ⟨id :: ids', ClimbsL.step hup hcl, ?_, ?_, ?_⟩
          · refine List.nodup_cons.mpr ⟨?_, hnd⟩
            intro hmem2
            have h3 := hbound id hmem2
            rw [hidx] at h3
            omega
          · intro x hx
            rcases List.mem_cons.mp hx with rfl | hx2
            · exact lookupKey_isSome_mem_keys (by rw [hup]; rfl)
            · exact hkeys x hx2
          · intro x hx
            rcases List.mem_cons.mp hx with rfl | hx2
            · rw [hidx]
            · have h3 := hbound x hx2
              omega

/-- With enough fuel, the source's predecessor walk follows a chain and
returns the accumulated path. -/
theorem buildPath_climbs {P : List (String × String)} {wid : String}
    (hw : lookupKey wid P = none) :
    ∀ {vid : String} {ids : List String}, ClimbsL P wid vid ids →
      ∀ (fuel : Nat), ids.length + 1 ≤ fuel → ∀ acc,
        Arena.buildPath P fuel vid acc = some (wid :: (ids.reverse ++ acc)) := by
  intro vid ids h
  induction h with
  | refl =>
    intro fuel hfuel acc
    cases fuel with
    | zero => omega
    | succ f =>
      unfold Arena.buildPath
      rw [hw]
      simp
  | step hlook htail ih =>
    rename_i vid2 uid2 ids2
    intro fuel hfuel acc
    cases fuel with
    | zero => simp at hfuel
    | succ f =>
      unfold Arena.buildPath
      rw [hlook]
      have hfuel2 : ids2.length + 1 ≤ f := by
        simp only [List.length_cons] at hfuel
        omega
      show Arena.buildPath P f uid2 (vid2 :: acc) = some (wid :: ((vid2 :: ids2).reverse ++ acc))
      rw [ih f hfuel2]
      simp

theorem climbs_last {P : List (String × String)} {wid vid : String} {ids : List String}
    (h : ClimbsL P wid vid ids) : (wid :: ids.reverse).getLast? = some vid := by
  cases h with
  | refl => rfl
  | step hlook htail =>
    rename_i uid2 ids2
    rw [List.reverse_cons,
      show wid :: (ids2.reverse ++ [vid]) = (wid :: ids2.reverse) ++ [vid] from rfl]
    exact List.getLast?_concat _

theorem climbs_chain {P : List (String × String)} {wid vid : String} {ids : List String}
    (h : ClimbsL P wid vid ids) :
    List.Chain' (fun x y => lookupKey y P = some x) (wid :: ids.reverse) := by
  induction h with
  | refl => simp
  | step hlook htail ih =>
    rename_i vid2 uid2 ids2
    rw [List.reverse_cons,
      show wid :: (ids2.reverse ++ [vid2]) = (wid :: ids2.reverse) ++ [vid2] from rfl]
    rw [List.chain'_append]
    refine ⟨ih, by simp, ?_⟩
    intro x hx y hy
    rw [climbs_last htail] at hx
    simp only [Option.mem_def, Option.some.injEq] at hx
    simp only [List.head?_cons, Option.mem_def, Option.some.injEq] at hy
    rw [hx, hy] at hlook
    exact hlook

theorem nodup_subset_length {ids keys : List String} (hnd : ids.Nodup)
    (hsub : ∀ x ∈ ids, x ∈ keys) : ids.length ≤ keys.length := by
  classical
  have h1 : ids.toFinset.card = ids.length := List.toFinset_card_of_nodup hnd
  have h2 : ids.toFinset ⊆ keys.toFinset := by
    intro x hx
    rw [List.mem_toFinset] at hx ⊢
    exact hsub x hx
  calc ids.length = ids.toFinset.card := h1.symm
    _ ≤ keys.toFinset.card := Finset.card_le_card h2
    _ ≤ keys.length := List.toFinset_card_le keys

/-- C8 (amended): in a well-formed engine (the hypotheses of the corrected
C1, plus a registered end node distinct from the start), when the end node
is reachable from the start the query succeeds and its output renders an
ordered sequence of node identifiers that begins at the start node, ends at
the end node, and follows the recorded predecessor chain. -/
theorem dijkstra_path_start_to_end (s t : Node) (ns : List Node) (es : List Edge)
    (G : GraphHyps s t (((Arena.new s t).add_nodes ns).add_edges es).nodes
      (((Arena.new s t).add_nodes ns).add_edges es).edges)
    (ht : t ∈ (((Arena.new s t).add_nodes ns).add_edges es).nodes.map Prod.snd)
    (hreach : ∃ w0, IsWalk ((((Arena.new s t).add_nodes ns).add_edges es).edges.map
      Prod.snd) w0 s t) :
    ∃ L : List String,
      Arena.buildPath
        (Arena.djikstraLoop (((Arena.new s t).add_nodes ns).add_edges es)).parents
        ((Arena.djikstraLoop (((Arena.new s t).add_nodes ns).add_edges es)).parents.length
          + 1)
        (Arena.djikstraLoop (((Arena.new s t).add_nodes ns).add_edges es)).end_.id []
        = some L ∧
      (((Arena.new s t).add_nodes ns).add_edges es).djikstra =
        some (Arena.renderPath L.reverse) ∧
      L.head? = some s.id ∧ L.getLast? = some t.id ∧
      List.Chain' (fun x y =>
        lookupKey y (Arena.djikstraLoop (((Arena.new s t).add_nodes ns).add_edges
          es)).parents = some x) L := by
  set A0 := ((Arena.new s t).add_nodes ns).add_edges es with hA0
  set af := Arena.djikstraLoop A0 with haf
  have hinv : DijkInv s t A0.nodes A0.edges af :=
    DijkInv_reaches G (DijkInv_init s t ns es G.hne) (loopReaches_djikstraLoop A0)
  have hnone : af.find_lowest_cost_node = none := find_lowest_djikstraLoop A0
  have htp : t ∈ af.processed := by
    have hcand : af.candidates = [] := (af.find_lowest_none_iff).mp hnone
    by_contra htp
    have hmem : t ∈ af.candidates := by
      refine (af.mem_candidates_iff t).mpr ⟨?_, htp⟩
      rw [Arena.nodeVals, hinv.nodes_eq]
      exact ht
    rw [hcand] at hmem
    simp at hmem
  obtain ⟨w0, hw0⟩ := hreach
  obtain ⟨wc, hwc, hwcMAX⟩ := G.hb t w0 hw0
  obtain ⟨qt, hqt_eq, hqt_le⟩ := hinv.procBound t htp wc hwc
  have hqtMAX : qt < f64MAX := lt_of_le_of_lt hqt_le hwcMAX
  have hqt_lookup : lookupKey t.id af.costs = some (F64.fin qt) := by
    unfold Arena.get_cost at hqt_eq
    rcases hl : lookupKey t.id af.costs with _ | c
    · rw [hl] at hqt_eq
      injection hqt_eq with h2
      rw [h2] at hqtMAX
      exact absurd hqtMAX (lt_irrefl _)
    · rw [hl] at hqt_eq
      cases c with
      | fin qc =>
        cases hqt_eq
        rfl
      | inf => cases hqt_eq
  obtain ⟨ids, hcl, hnd, hkeys, _⟩ := chain_exists G hinv
    (af.processed.indexOf (⟨t.id⟩ : Node)) t.id qt htp rfl hqt_lookup hqtMAX
  have hlen : ids.length ≤ af.parents.length := by
    have h1 := nodup_subset_length hnd hkeys
    simpa using h1
  have hbuild := buildPath_climbs hinv.start_noparent hcl (af.parents.length + 1)
    (by omega) []
  simp only [List.append_nil] at hbuild
  have hend : af.end_.id = t.id := by rw [hinv.end_eq]
  refine ⟨s.id :: ids.reverse, ?_, ?_, rfl, ?_, ?_⟩
  · rw [hend]
    exact hbuild
  · show A0.djikstra = _
    simp only [Arena.djikstra, ← haf]
    rw [hend, hbuild]
  · exact climbs_last hcl
  · exact climbs_chain hcl

theorem dijkstra_path_start_to_end_witness :
    ∃ L : List String,
      Arena.buildPath (Arena.djikstraLoop arenaLine).parents
        ((Arena.djikstraLoop arenaLine).parents.length + 1)
        (Arena.djikstraLoop arenaLine).end_.id [] = some L ∧
      arenaLine.djikstra = some (Arena.renderPath L.reverse) ∧
      L.head? = some nodeS.id ∧ L.getLast? = some nodeT.id ∧
      List.Chain' (fun x y =>
        lookupKey y (Arena.djikstraLoop arenaLine).parents = some x) L :=
  dijkstra_path_start_to_end nodeS nodeT [nodeS, nodeT] [edgeST5] arenaLine_hyps
    (by decide)
    ⟨[edgeST5], by
      have hEV : (((Arena.new nodeS nodeT).add_nodes [nodeS, nodeT]).add_edges
          [edgeST5]).edges.map Prod.snd = [edgeST5] := by with_unfolding_all rfl
      rw [hEV]
      exact IsWalk.cons (by simp) rfl (IsWalk.nil _)⟩

theorem start_cost_zero_throughout_witness :
    arenaLine.get_cost nodeS = F64.fin 0 ∧
    (Arena.djikstraLoop arenaLine).get_cost nodeS = F64.fin 0 := by
  have h := start_cost_zero_throughout nodeS nodeT [nodeS, nodeT] [edgeST5]
    (by decide) (by
      intro e he
      simp only [List.mem_singleton] at he
      subst he
      norm_num [edgeST5])
  exact ⟨h.1, h.2.2⟩
